import Mathlib

/-!
Verification of the balance settlement engine of `aa-splitter`
(`src/AASplitter.tsx`, `settlements` memo, lines 69-118; the same engine
appears verbatim in the second source file).

The engine is embedded shallowly over exact rationals `ℚ`.  JavaScript
numbers are modelled as exact decimal arithmetic; `x.toFixed(2)` followed by
`Number(...)` is modelled by `round2`, rounding to two decimal places with
ties away from zero (the rule ECMA's `toFixed` applies to the exact value,
and the rounding rule the repository spec itself prescribes).
`Math.abs` and `Math.min` are modelled by `qabs` and `qmin`.
The `while` loop of the waterfall phase is modelled with explicit fuel
(`phaseBFuel`), returning `none` when the fuel is exhausted; the theorem
`phaseBFuel_isSome` shows the fuel used by `settlements` never runs out.
-/

namespace AASplitter

/-- `type Person` of the source: `{ id, name, paid }`. -/
structure Person where
  id : ℕ
  name : String
  paid : ℚ
deriving DecidableEq

/-- The balance records built at the top of `settlements`:
`{ id: p.id, name: p.name, balance: Number((p.paid - avg).toFixed(2)) }`. -/
structure Bal where
  id : ℕ
  name : String
  balance : ℚ
deriving DecidableEq

/-- `type Settlement` of the source: `{ fromId, fromName, toId, toName, amount }`. -/
structure Settlement where
  fromId : ℕ
  fromName : String
  toId : ℕ
  toName : String
  amount : ℚ
deriving DecidableEq

/-- `Math.abs` on exact rationals. -/
def qabs (x : ℚ) : ℚ := if x < 0 then -x else x

/-- `Math.min` on exact rationals. -/
def qmin (x y : ℚ) : ℚ := if x ≤ y then x else y

/-- `Number(x.toFixed(2))`: round to two decimal places, ties away from zero. -/
def round2 (x : ℚ) : ℚ :=
  if 0 ≤ x then ((⌊100 * x + 1/2⌋ : ℤ) : ℚ) / 100
  else -(((⌊100 * (-x) + 1/2⌋ : ℤ) : ℚ) / 100)

/-- The tolerance `0.01` used by both phases of the engine. -/
def eps : ℚ := 1/100

/-- `total = people.reduce((sum, p) => sum + p.paid, 0)`. -/
def totalPaid (ps : List Person) : ℚ := (ps.map Person.paid).sum

/-- `avg = people.length ? total / people.length : 0`. -/
def avgPaid (ps : List Person) : ℚ :=
  if ps.length = 0 then 0 else totalPaid ps / ps.length

/-- `balances = people.map(p => ({ id, name, balance: Number((p.paid - avg).toFixed(2)) }))`. -/
def balancesOf (ps : List Person) : List Bal :=
  ps.map fun p => ⟨p.id, p.name, round2 (p.paid - avgPaid ps)⟩

/-- `debtors = balances.filter(p => p.balance < 0)`. -/
def debtorsOf (ps : List Person) : List Bal :=
  (balancesOf ps).filter fun b => b.balance < 0

/-- `creditors = balances.filter(p => p.balance > 0)`. -/
def creditorsOf (ps : List Person) : List Bal :=
  (balancesOf ps).filter fun b => 0 < b.balance

/-- Build the settlement record pushed onto `result`. -/
def mkT (d c : Bal) (a : ℚ) : Settlement := ⟨d.id, d.name, c.id, c.name, a⟩

/-- The predicate of Phase A's creditor search:
`Math.abs(c.balance + d.balance) < 0.01`. -/
def credMatch (d : Bal) (c : Bal) : Bool := qabs (c.balance + d.balance) < eps

/-- `target.balance = 0` at a given position of the creditor array. -/
def setBalZero : List Bal → ℕ → List Bal
  | [], _ => []
  | c :: cs, 0 => { c with balance := 0 } :: cs
  | c :: cs, k+1 => c :: setBalZero cs k

/-- Phase A (`for (let i = debtors.length - 1; i >= 0; i--) ...`), processing
the debtor list already reversed (the source scans it from the end backward).
For each debtor `d`, `creditors.find(c => Math.abs(c.balance + d.balance) < 0.01)`
is searched; on a hit the transfer `d → target` for `Math.abs(d.balance)` is
pushed, `target.balance` is zeroed, and the first creditor whose `id` equals
`target.id` is removed (`findIndex` + `splice`); the matched debtor is
spliced out, i.e. it does not appear in the returned kept list.  The zeroing
of `d.balance` in the source has no further effect, as the debtor is removed.
Returns (emitted transfers, kept debtors in processing order, remaining creditors). -/
def phaseAGo : List Bal → List Bal → List Settlement × List Bal × List Bal
  | [], cs => ([], [], cs)
  | d :: ds, cs =>
    match cs.find? (credMatch d) with
    | some c =>
      let cs1 := (setBalZero cs (cs.findIdx (credMatch d))).eraseP fun x => x.id == c.id
      let r := phaseAGo ds cs1
      (mkT d c (qabs d.balance) :: r.1, r.2.1, r.2.2)
    | none =>
      let r := phaseAGo ds cs
      (r.1, d :: r.2.1, r.2.2)

/-- Phase A on the original debtor list: reverse, process, and restore the
original order of the kept debtors (JS `splice` keeps the array order). -/
def phaseA (D C : List Bal) : List Settlement × List Bal × List Bal :=
  let r := phaseAGo D.reverse C
  (r.1, r.2.1.reverse, r.2.2)

/-- One pointer of the Phase B loop after a payment: the source writes the
updated balance back into the array slot and advances the pointer when
`Math.abs(balance) < 0.01`.  With the array suffix as a list, advancing drops
the head and not advancing keeps the updated record at the head. -/
def advance (b : Bal) (x : ℚ) (rest : List Bal) : List Bal :=
  if qabs x < eps then rest else { b with balance := x } :: rest

/-- Phase B, the waterfall `while (i < debtors.length && j < creditors.length)`
loop: `pay = Math.min(-debtors[i].balance, creditors[j].balance)`; a transfer
for `Number(pay.toFixed(2))` is pushed; both balances move by `pay`
(`debtors[i].balance += pay; creditors[j].balance -= pay`); each pointer
advances when its updated balance is within `0.01` of zero.  `fuel` bounds
the number of iterations; `none` means the fuel ran out (the source loop
would still be running). -/
def phaseBFuel : ℕ → List Bal → List Bal → Option (List Settlement)
  | _, [], _ => some []
  | _, _, [] => some []
  | 0, _ :: _, _ :: _ => none
  | fuel + 1, d :: ds, c :: cs =>
    (phaseBFuel fuel
        (advance d (d.balance + qmin (-d.balance) c.balance) ds)
        (advance c (c.balance - qmin (-d.balance) c.balance) cs)).map
      fun ts => mkT d c (round2 (qmin (-d.balance) c.balance)) :: ts

/-- The whole engine: `if (people.length < 2) return []`, then Phase A
followed by Phase B on the remaining debtors and creditors.  The fuel
`|debtors| + |creditors|` is shown sufficient by `phaseB_fuel_sufficient`. -/
def settlements (ps : List Person) : List Settlement :=
  if ps.length < 2 then []
  else
    let r := phaseA (debtorsOf ps) (creditorsOf ps)
    r.1 ++ (phaseBFuel (r.2.1.length + r.2.2.length) r.2.1 r.2.2).getD []

/-- `totalOutgoing` of a participant: the sum of the amounts of the transfers
whose `fromId` is the given id (the `perPersonTotals` aggregation). -/
def outSum (pid : ℕ) : List Settlement → ℚ
  | [] => 0
  | t :: ts => (if t.fromId = pid then t.amount else 0) + outSum pid ts

/-- `totalIncoming` of a participant: the sum of the amounts of the transfers
whose `toId` is the given id. -/
def inSum (pid : ℕ) : List Settlement → ℚ
  | [] => 0
  | t :: ts => (if t.toId = pid then t.amount else 0) + inSum pid ts

/-- Modelled from the spec (re-settlement is not part of the repository code):
apply the transfer list to the paid amounts.  A transfer moves money from its
`from` side to its `to` side, so the payer's contribution grows by the amount
and the payee's shrinks: `paid' = paid + totalOutgoing - totalIncoming`. -/
def applyTransfers (ps : List Person) (ts : List Settlement) : List Person :=
  ps.map fun p => { p with paid := p.paid + outSum p.id ts - inSum p.id ts }

/-- Modelled from the spec: the update rule exactly as claim C5 words it,
`paid' = paid - totalOutgoing + totalIncoming`. -/
def applyTransfersClaim (ps : List Person) (ts : List Settlement) : List Person :=
  ps.map fun p => { p with paid := p.paid - outSum p.id ts + inSum p.id ts }

/-- `x` is an integer number of cents. -/
def cents (x : ℚ) : Prop := ∃ k : ℤ, x = k / 100

/-- `x` is an exact odd multiple of half a cent: the tie case of `round2`. -/
def isTie (x : ℚ) : Prop := (200 * x).den = 1 ∧ (200 * x).num % 2 = 1

instance (x : ℚ) : Decidable (isTie x) := by unfold isTie; infer_instance

/-! ### Arithmetic facts about `qabs`, `qmin`, `round2` and `cents` -/

theorem qabs_of_nonneg {x : ℚ} (h : 0 ≤ x) : qabs x = x := by
  simp [qabs, not_lt.mpr h]

theorem qabs_of_nonpos {x : ℚ} (h : x ≤ 0) : qabs x = -x := by
  rcases lt_or_eq_of_le h with h' | h'
  · simp [qabs, h']
  · simp [qabs, h']

theorem qabs_nonneg (x : ℚ) : 0 ≤ qabs x := by
  unfold qabs; split
  · linarith
  · linarith

theorem qabs_lt_iff {c x : ℚ} : qabs x < c ↔ -c < x ∧ x < c := by
  unfold qabs; split <;> constructor <;> intro h <;>
    first
      | exact ⟨by linarith, by linarith⟩
      | (rcases h with ⟨h1, h2⟩; linarith)

theorem qabs_le_iff {c x : ℚ} : qabs x ≤ c ↔ -c ≤ x ∧ x ≤ c := by
  unfold qabs; split <;> constructor <;> intro h <;>
    first
      | exact ⟨by linarith, by linarith⟩
      | (rcases h with ⟨h1, h2⟩; linarith)

theorem qmin_choice (x y : ℚ) : qmin x y = x ∨ qmin x y = y := by
  unfold qmin; split
  · exact Or.inl rfl
  · exact Or.inr rfl

theorem qmin_le_left (x y : ℚ) : qmin x y ≤ x := by
  unfold qmin; split
  · exact le_refl x
  · linarith

theorem qmin_le_right (x y : ℚ) : qmin x y ≤ y := by
  unfold qmin; split
  · assumption
  · exact le_refl y

theorem lt_qmin {x y c : ℚ} (hx : c < x) (hy : c < y) : c < qmin x y := by
  unfold qmin; split
  · exact hx
  · exact hy

theorem cents_add {x y : ℚ} : cents x → cents y → cents (x + y) := by
  rintro ⟨k, rfl⟩ ⟨m, rfl⟩
  exact ⟨k + m, by push_cast; ring⟩

theorem cents_neg {x : ℚ} : cents x → cents (-x) := by
  rintro ⟨k, rfl⟩
  exact ⟨-k, by push_cast; ring⟩

theorem cents_sub {x y : ℚ} (hx : cents x) (hy : cents y) : cents (x - y) := by
  rw [sub_eq_add_neg]; exact cents_add hx (cents_neg hy)

theorem cents_zero : cents 0 := ⟨0, by norm_num⟩

theorem cents_qmin {x y : ℚ} (hx : cents x) (hy : cents y) : cents (qmin x y) := by
  rcases qmin_choice x y with h | h <;> rw [h] <;> assumption

theorem cents_qabs {x : ℚ} (hx : cents x) : cents (qabs x) := by
  unfold qabs; split
  · exact cents_neg hx
  · exact hx

theorem cents_eps_le {x : ℚ} (hc : cents x) (hx : 0 < x) : eps ≤ x := by
  rcases hc with ⟨k, rfl⟩
  have hk : (0 : ℚ) < (k : ℚ) := by
    rcases div_pos_iff.mp hx with ⟨h1, _⟩ | ⟨_, h2⟩
    · exact h1
    · norm_num at h2
  have hk1 : (1 : ℤ) ≤ k := by exact_mod_cast hk
  have h1 : (1 : ℚ) ≤ (k : ℚ) := by exact_mod_cast hk1
  unfold eps
  linarith

theorem cents_eq_zero_of_lt_eps {x : ℚ} (hc : cents x) (h : qabs x < eps) : x = 0 := by
  rcases lt_trichotomy x 0 with hx | hx | hx
  · exfalso
    have h1 : eps ≤ -x := cents_eps_le (cents_neg hc) (by linarith)
    rw [qabs_of_nonpos (le_of_lt hx)] at h
    linarith
  · exact hx
  · exfalso
    have h1 : eps ≤ x := cents_eps_le hc hx
    rw [qabs_of_nonneg (le_of_lt hx)] at h
    linarith

theorem round2_cents (x : ℚ) : cents (round2 x) := by
  unfold round2; split
  · exact ⟨⌊100 * x + 1/2⌋, rfl⟩
  · exact ⟨-⌊100 * (-x) + 1/2⌋, by push_cast; ring⟩

theorem round2_of_cents {x : ℚ} (hc : cents x) : round2 x = x := by
  rcases hc with ⟨k, rfl⟩
  have hfl : ∀ m : ℤ, ⌊(m : ℚ) + 1/2⌋ = m := by
    intro m
    rw [Int.floor_eq_iff]
    refine ⟨by linarith, ?_⟩
    have : ((m + 1 : ℤ) : ℚ) = (m : ℚ) + 1 := by push_cast; ring
    linarith [this.le]
  unfold round2
  split
  · rw [show (100 : ℚ) * ((k : ℚ) / 100) = (k : ℚ) by field_simp, hfl k]
  · rw [show (100 : ℚ) * (-((k : ℚ) / 100)) = ((-k : ℤ) : ℚ) by push_cast; field_simp; ring,
      hfl (-k)]
    push_cast
    ring

theorem round2_err_le (x : ℚ) : round2 x - x ≤ 1/200 := by
  unfold round2
  split
  · have h := Int.floor_le (100 * x + 1/2)
    linarith
  · have h := Int.sub_one_lt_floor (100 * (-x) + 1/2)
    linarith

theorem round2_err_ge (x : ℚ) : -(1/200) ≤ round2 x - x := by
  unfold round2
  split
  · have h := Int.sub_one_lt_floor (100 * x + 1/2)
    linarith
  · have h := Int.floor_le (100 * (-x) + 1/2)
    linarith

theorem round2_err_lt_of_neg {x : ℚ} (hx : x < 0) : round2 x - x < 1/200 := by
  unfold round2
  rw [if_neg (not_le.mpr hx)]
  have h := Int.sub_one_lt_floor (100 * (-x) + 1/2)
  linarith

theorem round2_err_gt_of_nonneg {x : ℚ} (hx : 0 ≤ x) : -(1/200) < round2 x - x := by
  unfold round2
  rw [if_pos hx]
  have h := Int.sub_one_lt_floor (100 * x + 1/2)
  linarith

theorem round2_eq_zero_iff {x : ℚ} : round2 x = 0 ↔ -(1/200) < x ∧ x < 1/200 := by
  unfold round2
  split
  case isTrue hx =>
    constructor
    · intro h
      have h0 : ⌊100 * x + 1/2⌋ = 0 := by
        have := div_eq_zero_iff.mp h
        rcases this with h | h
        · exact_mod_cast h
        · norm_num at h
      rw [Int.floor_eq_iff] at h0
      · push_cast at h0
        exact ⟨by linarith, by linarith⟩
    · rintro ⟨h1, h2⟩
      have h0 : ⌊100 * x + 1/2⌋ = 0 := by
        rw [Int.floor_eq_iff]
        · push_cast
          exact ⟨by linarith, by linarith⟩
      rw [h0]
      norm_num
  case isFalse hx =>
    push_neg at hx
    constructor
    · intro h
      have h0 : ⌊100 * (-x) + 1/2⌋ = 0 := by
        have h' : ((⌊100 * (-x) + 1/2⌋ : ℤ) : ℚ) / 100 = 0 := by linarith
        have := div_eq_zero_iff.mp h'
        rcases this with h'' | h''
        · exact_mod_cast h''
        · norm_num at h''
      rw [Int.floor_eq_iff] at h0
      · push_cast at h0
        exact ⟨by linarith, by linarith⟩
    · rintro ⟨h1, h2⟩
      have h0 : ⌊100 * (-x) + 1/2⌋ = 0 := by
        rw [Int.floor_eq_iff]
        · push_cast
          exact ⟨by linarith, by linarith⟩
      rw [h0]
      norm_num

theorem round2_zero : round2 0 = 0 := round2_of_cents cents_zero

theorem round2_nonpos_of {x : ℚ} (h : x < 1/200) : round2 x ≤ 0 := by
  unfold round2
  split
  case isTrue hx =>
    have h0 : ⌊100 * x + 1/2⌋ < 1 := by
      rw [Int.floor_lt]
      push_cast
      linarith
    have h1 : ⌊100 * x + 1/2⌋ ≤ 0 := by omega
    have h2 : ((⌊100 * x + 1/2⌋ : ℤ) : ℚ) ≤ 0 := by exact_mod_cast h1
    linarith
  case isFalse hx =>
    push_neg at hx
    have h0 : (0 : ℤ) ≤ ⌊100 * (-x) + 1/2⌋ := by
      rw [Int.le_floor]
      push_cast
      linarith
    have h2 : (0 : ℚ) ≤ ((⌊100 * (-x) + 1/2⌋ : ℤ) : ℚ) := by exact_mod_cast h0
    linarith

theorem round2_nonneg_of {x : ℚ} (h : -(1/200) < x) : 0 ≤ round2 x := by
  unfold round2
  split
  case isTrue hx =>
    have h0 : (0 : ℤ) ≤ ⌊100 * x + 1/2⌋ := by
      rw [Int.le_floor]
      push_cast
      linarith
    have h2 : (0 : ℚ) ≤ ((⌊100 * x + 1/2⌋ : ℤ) : ℚ) := by exact_mod_cast h0
    linarith
  case isFalse hx =>
    push_neg at hx
    have h0 : ⌊100 * (-x) + 1/2⌋ < 1 := by
      rw [Int.floor_lt]
      push_cast
      linarith
    have h1 : ⌊100 * (-x) + 1/2⌋ ≤ 0 := by omega
    have h2 : ((⌊100 * (-x) + 1/2⌋ : ℤ) : ℚ) ≤ 0 := by exact_mod_cast h1
    linarith

theorem isTie_of_round2_err_pos {x : ℚ} (h : round2 x - x = 1/200) : isTie x := by
  rcases le_or_lt 0 x with hx | hx
  · have hr : round2 x = ((⌊100 * x + 1/2⌋ : ℤ) : ℚ) / 100 := by
      unfold round2; rw [if_pos hx]
    set z := ⌊100 * x + 1/2⌋ with hz
    have h200 : (200 : ℚ) * x = ((2 * z - 1 : ℤ) : ℚ) := by
      rw [hr] at h
      push_cast [hz] at h ⊢
      linarith
    constructor
    · rw [h200, Rat.den_intCast]
    · rw [h200, Rat.num_intCast]
      omega
  · have := round2_err_lt_of_neg hx
    linarith

theorem isTie_of_round2_err_neg {x : ℚ} (h : round2 x - x = -(1/200)) : isTie x := by
  rcases le_or_lt 0 x with hx | hx
  · have := round2_err_gt_of_nonneg hx
    linarith
  · have hr : round2 x = -(((⌊100 * (-x) + 1/2⌋ : ℤ) : ℚ) / 100) := by
      unfold round2; rw [if_neg (not_le.mpr hx)]
    set z := ⌊100 * (-x) + 1/2⌋ with hz
    have h200 : (200 : ℚ) * x = ((1 - 2 * z : ℤ) : ℚ) := by
      rw [hr] at h
      push_cast
      linarith
    constructor
    · rw [h200, Rat.den_intCast]
    · rw [h200, Rat.num_intCast]
      omega

theorem round2_err_lt_of_not_tie {x : ℚ} (h : ¬ isTie x) : qabs (round2 x - x) < 1/200 := by
  rw [qabs_lt_iff]
  constructor
  · rcases lt_or_eq_of_le (round2_err_ge x) with h' | h'
    · exact h'
    · exact absurd (isTie_of_round2_err_neg h'.symm) h
  · rcases lt_or_eq_of_le (round2_err_le x) with h' | h'
    · exact h'
    · exact absurd (isTie_of_round2_err_pos h') h

/-! ### Per-participant totals of a transfer list -/

theorem outSum_cons (pid : ℕ) (t : Settlement) (ts : List Settlement) :
    outSum pid (t :: ts) = (if t.fromId = pid then t.amount else 0) + outSum pid ts := rfl

theorem inSum_cons (pid : ℕ) (t : Settlement) (ts : List Settlement) :
    inSum pid (t :: ts) = (if t.toId = pid then t.amount else 0) + inSum pid ts := rfl

theorem outSum_append (pid : ℕ) (ts1 ts2 : List Settlement) :
    outSum pid (ts1 ++ ts2) = outSum pid ts1 + outSum pid ts2 := by
  induction ts1 with
  | nil => simp [outSum]
  | cons t ts ih => simp only [List.cons_append, outSum_cons, ih]; ring

theorem inSum_append (pid : ℕ) (ts1 ts2 : List Settlement) :
    inSum pid (ts1 ++ ts2) = inSum pid ts1 + inSum pid ts2 := by
  induction ts1 with
  | nil => simp [inSum]
  | cons t ts ih => simp only [List.cons_append, inSum_cons, ih]; ring

theorem outSum_eq_zero {pid : ℕ} {ts : List Settlement}
    (h : ∀ t ∈ ts, t.fromId ≠ pid) : outSum pid ts = 0 := by
  induction ts with
  | nil => rfl
  | cons t ts ih =>
    rw [outSum_cons, if_neg (h t (List.mem_cons_self t ts)),
      ih (fun t' ht' => h t' (List.mem_cons_of_mem t ht'))]
    ring

theorem inSum_eq_zero {pid : ℕ} {ts : List Settlement}
    (h : ∀ t ∈ ts, t.toId ≠ pid) : inSum pid ts = 0 := by
  induction ts with
  | nil => rfl
  | cons t ts ih =>
    rw [inSum_cons, if_neg (h t (List.mem_cons_self t ts)),
      ih (fun t' ht' => h t' (List.mem_cons_of_mem t ht'))]
    ring

/-- The total amount moved by a transfer list. -/
def totalAmount (ts : List Settlement) : ℚ := (ts.map Settlement.amount).sum

theorem sum_map_add {α : Type} (l : List α) (f g : α → ℚ) :
    (l.map (fun i => f i + g i)).sum = (l.map f).sum + (l.map g).sum := by
  induction l with
  | nil => simp
  | cons a l ih => simp only [List.map_cons, List.sum_cons, ih]; ring

theorem sum_map_ite_zero {l : List ℕ} {pid : ℕ} (hn : pid ∉ l) (a : ℚ) :
    (l.map (fun i => if pid = i then a else 0)).sum = 0 := by
  induction l with
  | nil => simp
  | cons b l ih =>
    simp only [List.map_cons, List.sum_cons]
    rw [if_neg (by simp at hn; exact hn.1), ih (by simp at hn; exact hn.2)]
    ring

theorem sum_map_ite_single {l : List ℕ} {pid : ℕ} (hN : l.Nodup) (hm : pid ∈ l) (a : ℚ) :
    (l.map (fun i => if pid = i then a else 0)).sum = a := by
  induction l with
  | nil => simp at hm
  | cons b l ih =>
    simp only [List.map_cons, List.sum_cons]
    rcases List.mem_cons.mp hm with h | h
    · have hnl : pid ∉ l := by
        rw [h]
        exact (List.nodup_cons.mp hN).1
      rw [if_pos h, sum_map_ite_zero hnl a]
      ring
    · have hbp : pid ≠ b := by
        rintro rfl
        exact (List.nodup_cons.mp hN).1 h
      rw [if_neg hbp, ih (List.nodup_cons.mp hN).2 h]
      ring

theorem sum_outSum {ids : List ℕ} {ts : List Settlement} (hN : ids.Nodup)
    (hT : ∀ t ∈ ts, t.fromId ∈ ids) :
    (ids.map (fun i => outSum i ts)).sum = totalAmount ts := by
  induction ts with
  | nil => simp [outSum, totalAmount]
  | cons t ts ih =>
    have h1 : (ids.map (fun i => outSum i (t :: ts))).sum
        = (ids.map (fun i => if t.fromId = i then t.amount else 0)).sum
          + (ids.map (fun i => outSum i ts)).sum := by
      rw [← sum_map_add]
      congr 1
    rw [h1, sum_map_ite_single hN (hT t (List.mem_cons_self t ts)) t.amount,
      ih (fun t' ht' => hT t' (List.mem_cons_of_mem t ht'))]
    simp [totalAmount]

theorem sum_inSum {ids : List ℕ} {ts : List Settlement} (hN : ids.Nodup)
    (hT : ∀ t ∈ ts, t.toId ∈ ids) :
    (ids.map (fun i => inSum i ts)).sum = totalAmount ts := by
  induction ts with
  | nil => simp [inSum, totalAmount]
  | cons t ts ih =>
    have h1 : (ids.map (fun i => inSum i (t :: ts))).sum
        = (ids.map (fun i => if t.toId = i then t.amount else 0)).sum
          + (ids.map (fun i => inSum i ts)).sum := by
      rw [← sum_map_add]
      congr 1
    rw [h1, sum_map_ite_single hN (hT t (List.mem_cons_self t ts)) t.amount,
      ih (fun t' ht' => hT t' (List.mem_cons_of_mem t ht'))]
    simp [totalAmount]

/-! ### Phase B: termination, transfer-count bound, accounting -/

theorem advance_eq_or (b : Bal) (x : ℚ) (rest : List Bal) :
    advance b x rest = rest ∨
      (¬ qabs x < eps ∧ advance b x rest = { b with balance := x } :: rest) := by
  unfold advance
  split
  · exact Or.inl rfl
  · exact Or.inr ⟨by assumption, rfl⟩

theorem mem_advance {y b : Bal} {x : ℚ} {rest : List Bal}
    (h : y ∈ advance b x rest) :
    (¬ qabs x < eps ∧ y = { b with balance := x }) ∨ y ∈ rest := by
  rcases advance_eq_or b x rest with h' | ⟨hk, h'⟩
  · rw [h'] at h
    exact Or.inr h
  · rw [h'] at h
    rcases List.mem_cons.mp h with h'' | h''
    · exact Or.inl ⟨hk, h''⟩
    · exact Or.inr h''

theorem advance_ids_sublist (b : Bal) (x : ℚ) (rest : List Bal) :
    List.Sublist ((advance b x rest).map Bal.id) ((b :: rest).map Bal.id) := by
  rcases advance_eq_or b x rest with h | ⟨_, h⟩ <;> rw [h]
  · simp only [List.map_cons]
    exact List.sublist_cons_self _ _
  · simp only [List.map_cons]
    exact List.Sublist.refl _

theorem advance_length (b : Bal) (x : ℚ) (rest : List Bal) :
    (advance b x rest).length ≤ rest.length + 1 := by
  rcases advance_eq_or b x rest with h | ⟨_, h⟩ <;> rw [h] <;> simp

theorem qabs_zero_lt_eps : qabs (0 : ℚ) < eps := by
  unfold qabs eps
  norm_num

/-- Each iteration of the waterfall drives the smaller of the two current
balances exactly to zero, so at least one pointer advances. -/
theorem advance_progress (d c : Bal) (ds cs : List Bal) :
    (advance d (d.balance + qmin (-d.balance) c.balance) ds).length
      + (advance c (c.balance - qmin (-d.balance) c.balance) cs).length
      ≤ ds.length + cs.length + 1 := by
  rcases qmin_choice (-d.balance) c.balance with h | h
  · have hz : d.balance + qmin (-d.balance) c.balance = 0 := by rw [h]; ring
    have hd : advance d (d.balance + qmin (-d.balance) c.balance) ds = ds := by
      unfold advance
      rw [hz, if_pos qabs_zero_lt_eps]
    rw [hd]
    have := advance_length c (c.balance - qmin (-d.balance) c.balance) cs
    omega
  · have hz : c.balance - qmin (-d.balance) c.balance = 0 := by rw [h]; ring
    have hc : advance c (c.balance - qmin (-d.balance) c.balance) cs = cs := by
      unfold advance
      rw [hz, if_pos qabs_zero_lt_eps]
    rw [hc]
    have := advance_length d (d.balance + qmin (-d.balance) c.balance) ds
    omega

theorem phaseBFuel_nil_left (fuel : ℕ) (C : List Bal) : phaseBFuel fuel [] C = some [] := by
  cases fuel <;> cases C <;> rfl

theorem phaseBFuel_nil_right (fuel : ℕ) (D : List Bal) : phaseBFuel fuel D [] = some [] := by
  cases fuel <;> cases D <;> rfl

theorem phaseBFuel_zero (d c : Bal) (ds cs : List Bal) :
    phaseBFuel 0 (d :: ds) (c :: cs) = none := rfl

theorem phaseBFuel_step (fuel : ℕ) (d c : Bal) (ds cs : List Bal) :
    phaseBFuel (fuel + 1) (d :: ds) (c :: cs)
      = (phaseBFuel fuel
          (advance d (d.balance + qmin (-d.balance) c.balance) ds)
          (advance c (c.balance - qmin (-d.balance) c.balance) cs)).map
        (fun ts => mkT d c (round2 (qmin (-d.balance) c.balance)) :: ts) := rfl

/-- With fuel at least the total number of remaining debtors and creditors,
the waterfall loop always terminates. -/
theorem phaseBFuel_isSome (fuel : ℕ) : ∀ (D C : List Bal),
    D.length + C.length ≤ fuel → ∃ ts, phaseBFuel fuel D C = some ts := by
  induction fuel with
  | zero =>
    intro D C h
    cases D with
    | nil => exact ⟨[], phaseBFuel_nil_left 0 C⟩
    | cons d ds =>
      cases C with
      | nil => exact ⟨[], phaseBFuel_nil_right 0 (d :: ds)⟩
      | cons c cs => simp at h
  | succ fuel ih =>
    intro D C h
    cases D with
    | nil => exact ⟨[], phaseBFuel_nil_left _ C⟩
    | cons d ds =>
      cases C with
      | nil => exact ⟨[], phaseBFuel_nil_right _ _⟩
      | cons c cs =>
        have hlen := advance_progress d c ds cs
        have hle : (advance d (d.balance + qmin (-d.balance) c.balance) ds).length
            + (advance c (c.balance - qmin (-d.balance) c.balance) cs).length ≤ fuel := by
          simp only [List.length_cons] at h
          omega
        rcases ih _ _ hle with ⟨ts, hts⟩
        exact ⟨_, by rw [phaseBFuel_step, hts]; rfl⟩

/-- The waterfall emits at most `|debtors| + |creditors| - 1` transfers. -/
theorem phaseBFuel_length (fuel : ℕ) : ∀ (D C : List Bal) (ts : List Settlement),
    phaseBFuel fuel D C = some ts →
    ts = [] ∨ ts.length + 1 ≤ D.length + C.length := by
  induction fuel with
  | zero =>
    intro D C ts h
    cases D with
    | nil =>
      rw [phaseBFuel_nil_left] at h
      exact Or.inl (Option.some.inj h).symm
    | cons d ds =>
      cases C with
      | nil =>
        rw [phaseBFuel_nil_right] at h
        exact Or.inl (Option.some.inj h).symm
      | cons c cs =>
        rw [phaseBFuel_zero] at h
        cases h
  | succ fuel ih =>
    intro D C ts h
    cases D with
    | nil =>
      rw [phaseBFuel_nil_left] at h
      exact Or.inl (Option.some.inj h).symm
    | cons d ds =>
      cases C with
      | nil =>
        rw [phaseBFuel_nil_right] at h
        exact Or.inl (Option.some.inj h).symm
      | cons c cs =>
        rw [phaseBFuel_step] at h
        rcases Option.map_eq_some'.mp h with ⟨ts', hts', rfl⟩
        right
        rcases ih _ _ _ hts' with rfl | hlen
        · simp only [List.length_cons, List.length_nil]
          omega
        · have := advance_progress d c ds cs
          simp only [List.length_cons] at *
          omega

theorem advance_pos {b : Bal} {x : ℚ} {rest : List Bal} (h : qabs x < eps) :
    advance b x rest = rest := by
  unfold advance
  rw [if_pos h]

theorem advance_neg {b : Bal} {x : ℚ} {rest : List Bal} (h : ¬ qabs x < eps) :
    advance b x rest = { b with balance := x } :: rest := by
  unfold advance
  rw [if_neg h]

/-- Per-id accounting of the waterfall phase: every transfer is positive, an
integer number of cents, and goes from a debtor id to a creditor id; each
debtor pays out at most its debt and receives nothing; each creditor receives
at most its due and pays nothing; and at least one of the two sides is
settled exactly. -/
theorem phaseB_accounting (fuel : ℕ) : ∀ (D C : List Bal) (ts : List Settlement),
    phaseBFuel fuel D C = some ts →
    (∀ b ∈ D, b.balance < 0 ∧ cents b.balance) →
    (∀ b ∈ C, 0 < b.balance ∧ cents b.balance) →
    ((D ++ C).map Bal.id).Nodup →
    ((∀ t ∈ ts, 0 < t.amount ∧ cents t.amount
        ∧ t.fromId ∈ D.map Bal.id ∧ t.toId ∈ C.map Bal.id)
      ∧ (∀ b ∈ D, 0 ≤ outSum b.id ts ∧ outSum b.id ts ≤ -b.balance)
      ∧ (∀ b ∈ C, 0 ≤ inSum b.id ts ∧ inSum b.id ts ≤ b.balance)
      ∧ ((∀ b ∈ D, outSum b.id ts = -b.balance) ∨ (∀ b ∈ C, inSum b.id ts = b.balance))) := by
  induction fuel with
  | zero =>
    intro D C ts h hD hC _
    cases D with
    | nil =>
      rw [phaseBFuel_nil_left] at h
      cases h
      refine ⟨by simp, by simp, ?_, Or.inl (by simp)⟩
      intro b hb
      exact ⟨le_refl 0, le_of_lt (hC b hb).1⟩
    | cons d ds =>
      cases C with
      | nil =>
        rw [phaseBFuel_nil_right] at h
        cases h
        refine ⟨by simp, ?_, by simp, Or.inr (by simp)⟩
        intro b hb
        have hbneg := (hD b hb).1
        exact ⟨le_refl 0, show (0:ℚ) ≤ -b.balance by linarith⟩
      | cons c cs =>
        rw [phaseBFuel_zero] at h
        cases h
  | succ fuel ih =>
    intro D C ts h hD hC hN
    cases D with
    | nil =>
      rw [phaseBFuel_nil_left] at h
      cases h
      refine ⟨by simp, by simp, ?_, Or.inl (by simp)⟩
      intro b hb
      exact ⟨le_refl 0, le_of_lt (hC b hb).1⟩
    | cons d ds =>
      cases C with
      | nil =>
        rw [phaseBFuel_nil_right] at h
        cases h
        refine ⟨by simp, ?_, by simp, Or.inr (by simp)⟩
        intro b hb
        have hbneg := (hD b hb).1
        exact ⟨le_refl 0, show (0:ℚ) ≤ -b.balance by linarith⟩
      | cons c cs =>
        rw [phaseBFuel_step] at h
        rcases Option.map_eq_some'.mp h with ⟨ts', hts', rfl⟩
        -- basic facts about the head debtor, head creditor and the payment
        have hd0 : d.balance < 0 := (hD d (List.mem_cons_self d ds)).1
        have hdc : cents d.balance := (hD d (List.mem_cons_self d ds)).2
        have hc0 : 0 < c.balance := (hC c (List.mem_cons_self c cs)).1
        have hcc : cents c.balance := (hC c (List.mem_cons_self c cs)).2
        set pay := qmin (-d.balance) c.balance with hpay_def
        have hpay_pos : 0 < pay := lt_qmin (by linarith) hc0
        have hpay_cents : cents pay := cents_qmin (cents_neg hdc) hcc
        have hr2 : round2 pay = pay := round2_of_cents hpay_cents
        have hpay_le_d : pay ≤ -d.balance := qmin_le_left _ _
        have hpay_le_c : pay ≤ c.balance := qmin_le_right _ _
        set dsa := advance d (d.balance + pay) ds with hdsa_def
        set csa := advance c (c.balance - pay) cs with hcsa_def
        -- hypotheses of the induction hypothesis
        have hDa : ∀ b ∈ dsa, b.balance < 0 ∧ cents b.balance := by
          intro b hb
          rcases mem_advance hb with ⟨hk, rfl⟩ | hb'
          · refine ⟨?_, cents_add hdc hpay_cents⟩
            rcases lt_or_eq_of_le (show d.balance + pay ≤ 0 by linarith) with h' | h'
            · exact h'
            · exact absurd (h' ▸ qabs_zero_lt_eps) hk
          · exact hD b (List.mem_cons_of_mem d hb')
        have hCa : ∀ b ∈ csa, 0 < b.balance ∧ cents b.balance := by
          intro b hb
          rcases mem_advance hb with ⟨hk, rfl⟩ | hb'
          · refine ⟨?_, cents_sub hcc hpay_cents⟩
            rcases lt_or_eq_of_le (show 0 ≤ c.balance - pay by linarith) with h' | h'
            · exact h'
            · exact absurd (h' ▸ qabs_zero_lt_eps) hk
          · exact hC b (List.mem_cons_of_mem c hb')
        have hNa : ((dsa ++ csa).map Bal.id).Nodup := by
          refine hN.sublist ?_
          rw [List.map_append, List.map_append]
          exact List.Sublist.append (advance_ids_sublist d _ ds) (advance_ids_sublist c _ cs)
        obtain ⟨P1, P2, P3, P4⟩ := ih dsa csa ts' hts' hDa hCa hNa
        -- id bookkeeping from the Nodup hypothesis
        rw [List.map_append, List.nodup_append] at hN
        obtain ⟨hN1, hN2, hNd⟩ := hN
        have hdid_ds : d.id ∉ ds.map Bal.id := by
          simp only [List.map_cons, List.nodup_cons] at hN1
          exact hN1.1
        have hcid_cs : c.id ∉ cs.map Bal.id := by
          simp only [List.map_cons, List.nodup_cons] at hN2
          exact hN2.1
        have hdsa_sub : ∀ x, x ∈ dsa.map Bal.id → x ∈ (d :: ds).map Bal.id :=
          fun x hx => (advance_ids_sublist d _ ds).subset hx
        have hcsa_sub : ∀ x, x ∈ csa.map Bal.id → x ∈ (c :: cs).map Bal.id :=
          fun x hx => (advance_ids_sublist c _ cs).subset hx
        have hout_zero : ∀ x, x ∉ dsa.map Bal.id → outSum x ts' = 0 := by
          intro x hx
          refine outSum_eq_zero fun t ht heq => hx (heq ▸ (P1 t ht).2.2.1)
        have hin_zero : ∀ x, x ∉ csa.map Bal.id → inSum x ts' = 0 := by
          intro x hx
          refine inSum_eq_zero fun t ht heq => hx (heq ▸ (P1 t ht).2.2.2)
        -- the head transfer
        have ht0_from : (mkT d c (round2 pay)).fromId = d.id := rfl
        have ht0_to : (mkT d c (round2 pay)).toId = c.id := rfl
        have hout_cons : ∀ x, outSum x (mkT d c (round2 pay) :: ts')
            = (if d.id = x then pay else 0) + outSum x ts' := by
          intro x
          rw [outSum_cons, ht0_from]
          congr 1
          split <;> simp [mkT, hr2]
        have hin_cons : ∀ x, inSum x (mkT d c (round2 pay) :: ts')
            = (if c.id = x then pay else 0) + inSum x ts' := by
          intro x
          rw [inSum_cons, ht0_to]
          congr 1
          split <;> simp [mkT, hr2]
        -- per-debtor bounds
        have hP2 : ∀ b ∈ (d :: ds), 0 ≤ outSum b.id (mkT d c (round2 pay) :: ts')
            ∧ outSum b.id (mkT d c (round2 pay) :: ts') ≤ -b.balance := by
          intro b hb
          rcases List.mem_cons.mp hb with rfl | hb'
          · rw [hout_cons, if_pos rfl]
            by_cases hadv : qabs (b.balance + pay) < eps
            · have hz : b.balance + pay = 0 :=
                cents_eq_zero_of_lt_eps (cents_add hdc hpay_cents) hadv
              have hdsa : dsa = ds := by rw [hdsa_def, advance_pos hadv]
              have h0 : outSum b.id ts' = 0 := by
                apply hout_zero
                rw [hdsa]
                exact hdid_ds
              rw [h0]
              constructor
              · linarith
              · linarith
            · have hdsa : dsa = { b with balance := b.balance + pay } :: ds := by
                rw [hdsa_def, advance_neg hadv]
              have hmem : ({ b with balance := b.balance + pay } : Bal) ∈ dsa := by
                rw [hdsa]
                exact List.mem_cons_self _ _
              have := P2 _ hmem
              simp only at this
              constructor
              · linarith [this.1]
              · linarith [this.2]
          · have hne : d.id ≠ b.id := by
              intro heq
              exact hdid_ds (heq ▸ List.mem_map_of_mem Bal.id hb')
            rw [hout_cons, if_neg hne]
            have hmem : b ∈ dsa := by
              rcases advance_eq_or d (d.balance + pay) ds with h' | ⟨_, h'⟩ <;>
                rw [hdsa_def, h']
              · exact hb'
              · exact List.mem_cons_of_mem _ hb'
            have := P2 b hmem
            constructor
            · linarith [this.1]
            · linarith [this.2]
        -- per-creditor bounds
        have hP3 : ∀ b ∈ (c :: cs), 0 ≤ inSum b.id (mkT d c (round2 pay) :: ts')
            ∧ inSum b.id (mkT d c (round2 pay) :: ts') ≤ b.balance := by
          intro b hb
          rcases List.mem_cons.mp hb with rfl | hb'
          · rw [hin_cons, if_pos rfl]
            by_cases hadv : qabs (b.balance - pay) < eps
            · have hz : b.balance - pay = 0 :=
                cents_eq_zero_of_lt_eps (cents_sub hcc hpay_cents) hadv
              have hcsa : csa = cs := by rw [hcsa_def, advance_pos hadv]
              have h0 : inSum b.id ts' = 0 := by
                apply hin_zero
                rw [hcsa]
                exact hcid_cs
              rw [h0]
              constructor
              · linarith
              · linarith
            · have hcsa : csa = { b with balance := b.balance - pay } :: cs := by
                rw [hcsa_def, advance_neg hadv]
              have hmem : ({ b with balance := b.balance - pay } : Bal) ∈ csa := by
                rw [hcsa]
                exact List.mem_cons_self _ _
              have := P3 _ hmem
              simp only at this
              constructor
              · linarith [this.1]
              · linarith [this.2]
          · have hne : c.id ≠ b.id := by
              intro heq
              exact hcid_cs (heq ▸ List.mem_map_of_mem Bal.id hb')
            rw [hin_cons, if_neg hne]
            have hmem : b ∈ csa := by
              rcases advance_eq_or c (c.balance - pay) cs with h' | ⟨_, h'⟩ <;>
                rw [hcsa_def, h']
              · exact hb'
              · exact List.mem_cons_of_mem _ hb'
            have := P3 b hmem
            constructor
            · linarith [this.1]
            · linarith [this.2]
        refine ⟨?_, hP2, hP3, ?_⟩
        · -- every transfer: positive cents, debtor id to creditor id
          intro t ht
          rcases List.mem_cons.mp ht with rfl | ht'
          · have hamt : (mkT d c (round2 pay)).amount = pay := by simp [mkT, hr2]
            refine ⟨?_, ?_, ?_, ?_⟩
            · rw [hamt]
              exact hpay_pos
            · rw [hamt]
              exact hpay_cents
            · rw [ht0_from]
              exact List.mem_map_of_mem Bal.id (List.mem_cons_self d ds)
            · rw [ht0_to]
              exact List.mem_map_of_mem Bal.id (List.mem_cons_self c cs)
          · obtain ⟨ha, hb, hf, htid⟩ := P1 t ht'
            exact ⟨ha, hb, hdsa_sub _ hf, hcsa_sub _ htid⟩
        · -- at least one side settles exactly
          by_cases hadv_d : qabs (d.balance + pay) < eps
          · have hz : d.balance + pay = 0 :=
              cents_eq_zero_of_lt_eps (cents_add hdc hpay_cents) hadv_d
            have hdsa : dsa = ds := by rw [hdsa_def, advance_pos hadv_d]
            rcases P4 with P4l | P4r
            · left
              intro b hb
              rcases List.mem_cons.mp hb with rfl | hb'
              · rw [hout_cons, if_pos rfl, hout_zero b.id (hdsa ▸ hdid_ds)]
                linarith
              · have hne : d.id ≠ b.id := by
                  intro heq
                  exact hdid_ds (heq ▸ List.mem_map_of_mem Bal.id hb')
                rw [hout_cons, if_neg hne]
                have := P4l b (hdsa ▸ hb')
                linarith
            · right
              intro b hb
              rcases List.mem_cons.mp hb with rfl | hb'
              · rw [hin_cons, if_pos rfl]
                by_cases hadv_c : qabs (b.balance - pay) < eps
                · have hzc : b.balance - pay = 0 :=
                    cents_eq_zero_of_lt_eps (cents_sub hcc hpay_cents) hadv_c
                  have hcsa : csa = cs := by rw [hcsa_def, advance_pos hadv_c]
                  rw [hin_zero b.id (hcsa ▸ hcid_cs)]
                  linarith
                · have hcsa : csa = { b with balance := b.balance - pay } :: cs := by
                    rw [hcsa_def, advance_neg hadv_c]
                  have hmem : ({ b with balance := b.balance - pay } : Bal) ∈ csa := by
                    rw [hcsa]
                    exact List.mem_cons_self _ _
                  have := P4r _ hmem
                  simp only at this
                  linarith
              · have hne : c.id ≠ b.id := by
                  intro heq
                  exact hcid_cs (heq ▸ List.mem_map_of_mem Bal.id hb')
                rw [hin_cons, if_neg hne, zero_add]
                have hmem : b ∈ csa := by
                  rcases advance_eq_or c (c.balance - pay) cs with h' | ⟨_, h'⟩ <;>
                    rw [hcsa_def, h']
                  · exact hb'
                  · exact List.mem_cons_of_mem _ hb'
                exact P4r b hmem
          · -- the debtor is kept, so the creditor must have been consumed
            have hpay_eq_c : pay = c.balance := by
              rcases qmin_choice (-d.balance) c.balance with h' | h'
              · exfalso
                apply hadv_d
                rw [hpay_def, h']
                simpa using qabs_zero_lt_eps
              · rw [hpay_def, h']
            have hdsa : dsa = { d with balance := d.balance + pay } :: ds := by
              rw [hdsa_def, advance_neg hadv_d]
            have hadv_c : qabs (c.balance - pay) < eps := by
              rw [hpay_eq_c]
              simpa using qabs_zero_lt_eps
            have hcsa : csa = cs := by rw [hcsa_def, advance_pos hadv_c]
            rcases P4 with P4l | P4r
            · left
              intro b hb
              rcases List.mem_cons.mp hb with rfl | hb'
              · rw [hout_cons, if_pos rfl]
                have hmem : ({ b with balance := b.balance + pay } : Bal) ∈ dsa := by
                  rw [hdsa]
                  exact List.mem_cons_self _ _
                have := P4l _ hmem
                simp only at this
                linarith
              · have hne : d.id ≠ b.id := by
                  intro heq
                  exact hdid_ds (heq ▸ List.mem_map_of_mem Bal.id hb')
                rw [hout_cons, if_neg hne, zero_add]
                have hmem : b ∈ dsa := by
                  rw [hdsa]
                  exact List.mem_cons_of_mem _ hb'
                exact P4l b hmem
            · right
              intro b hb
              rcases List.mem_cons.mp hb with rfl | hb'
              · rw [hin_cons, if_pos rfl, hin_zero b.id (hcsa ▸ hcid_cs)]
                linarith
              · have hne : c.id ≠ b.id := by
                  intro heq
                  exact hcid_cs (heq ▸ List.mem_map_of_mem Bal.id hb')
                rw [hin_cons, if_neg hne, zero_add]
                exact P4r b (hcsa ▸ hb')

/-! ### Phase A: the exact-match pairing -/

/-- Under unique creditor ids, the source's removal of the matched creditor
(zero its balance in place, then `findIndex` by id and `splice`) removes
exactly the creditor found by `find?`: it equals `List.eraseP` with the
match predicate itself. -/
theorem removal_faithful (d : Bal) : ∀ (cs : List Bal), (cs.map Bal.id).Nodup →
    ∀ c, cs.find? (credMatch d) = some c →
    (setBalZero cs (cs.findIdx (credMatch d))).eraseP (fun x => x.id == c.id)
      = cs.eraseP (credMatch d) := by
  intro cs
  induction cs with
  | nil =>
    intro _ c h
    cases h
  | cons c0 rest ih =>
    intro hN c h
    simp only [List.map_cons, List.nodup_cons] at hN
    by_cases hp : credMatch d c0 = true
    · rw [List.find?_cons_of_pos _ hp] at h
      cases h
      rw [List.findIdx_cons, hp, cond_true]
      show (({ c0 with balance := 0 } : Bal) :: rest).eraseP (fun x => x.id == c0.id)
          = (c0 :: rest).eraseP (credMatch d)
      rw [List.eraseP_cons_of_pos (by simp), List.eraseP_cons_of_pos hp]
    · rw [List.find?_cons_of_neg _ hp] at h
      have hcrest : c ∈ rest := List.mem_of_find?_eq_some h
      have hcid : ¬ (c0.id == c.id) = true := by
        simp only [beq_iff_eq]
        intro heq
        exact hN.1 (heq ▸ List.mem_map_of_mem Bal.id hcrest)
      rw [List.findIdx_cons, Bool.cond_eq_ite, if_neg hp]
      show (c0 :: setBalZero rest (rest.findIdx (credMatch d))).eraseP (fun x => x.id == c.id)
          = (c0 :: rest).eraseP (credMatch d)
      rw [List.eraseP_cons_of_neg (by exact hcid), List.eraseP_cons_of_neg (by exact hp),
        ih hN.2 c h]

theorem nodup_mid_not_mem {as bs : List Bal} {c : Bal}
    (h : ((as ++ c :: bs).map Bal.id).Nodup) : c.id ∉ (as ++ bs).map Bal.id := by
  rw [List.map_append, List.nodup_append] at h
  obtain ⟨h1, h2, hdisj⟩ := h
  simp only [List.map_cons, List.nodup_cons] at h2
  rw [List.map_append, List.mem_append]
  rintro (hc | hc)
  · exact hdisj hc (by simp)
  · exact h2.1 hc

/-- Within a list whose mapped ids are `Nodup`, membership of an element in a
sublist is determined by membership of its id. -/
theorem mem_of_id_mem_sublist {l' l : List Bal} (hs : List.Sublist l' l)
    (hN : (l.map Bal.id).Nodup) {b : Bal} (hb : b ∈ l)
    (hid : b.id ∈ l'.map Bal.id) : b ∈ l' := by
  rcases List.mem_map.mp hid with ⟨b', hb', hbid⟩
  have : b' = b := List.inj_on_of_nodup_map hN (hs.subset hb') hb hbid
  exact this ▸ hb'

/-- Per-id accounting of the exact-match phase: every emitted transfer is
positive, an integer number of cents, drawn from a debtor id, and pays some
creditor exactly that creditor's full balance; every debtor is either kept
(and untouched) or settled exactly; every creditor is either still present
(and untouched) or paid exactly; the kept and remaining lists are sublists
of the inputs; and one transfer consumes exactly one debtor and one
creditor. -/
theorem phaseA_accounting : ∀ (D C : List Bal) (ts : List Settlement) (kept rem : List Bal),
    phaseAGo D C = (ts, kept, rem) →
    (∀ b ∈ D, b.balance < 0 ∧ cents b.balance) →
    (∀ b ∈ C, 0 < b.balance ∧ cents b.balance) →
    ((D ++ C).map Bal.id).Nodup →
    ((∀ t ∈ ts, 0 < t.amount ∧ cents t.amount ∧ t.fromId ∈ D.map Bal.id
        ∧ ∃ c ∈ C, t.toId = c.id ∧ t.amount = c.balance)
      ∧ List.Sublist kept D
      ∧ List.Sublist rem C
      ∧ (∀ b ∈ D, b ∈ kept ∨ outSum b.id ts = -b.balance)
      ∧ (∀ b ∈ kept, outSum b.id ts = 0)
      ∧ (∀ b ∈ C, b ∈ rem ∨ inSum b.id ts = b.balance)
      ∧ (∀ b ∈ rem, inSum b.id ts = 0)
      ∧ ts.length + kept.length = D.length
      ∧ ts.length + rem.length = C.length) := by
  intro D
  induction D with
  | nil =>
    intro C ts kept rem h hD hC hN
    have h' : (([], [], C) : List Settlement × List Bal × List Bal) = (ts, kept, rem) := h
    simp only [Prod.mk.injEq] at h'
    obtain ⟨rfl, rfl, rfl⟩ := h'
    refine ⟨by simp, List.Sublist.refl _, List.Sublist.refl _, by simp, by simp,
      fun b hb => Or.inl hb, ?_, by simp, by simp⟩
    intro b _
    exact inSum_eq_zero (by simp)
  | cons d ds ih =>
    intro C ts kept rem h hD hC hN
    have hd0 : d.balance < 0 := (hD d (List.mem_cons_self d ds)).1
    have hdc : cents d.balance := (hD d (List.mem_cons_self d ds)).2
    have hNds : ((ds ++ C).map Bal.id).Nodup := by
      refine hN.sublist (List.Sublist.map Bal.id ?_)
      exact List.Sublist.append (List.sublist_cons_self d ds) (List.Sublist.refl C)
    have hd_not_ds : d.id ∉ ds.map Bal.id := by
      rw [List.map_append, List.nodup_append] at hN
      have := hN.1
      simp only [List.map_cons, List.nodup_cons] at this
      exact this.1
    have hd_not_C : d.id ∉ C.map Bal.id := by
      rw [List.map_append, List.nodup_append] at hN
      exact hN.2.2 (by simp)
    rcases hfind : C.find? (credMatch d) with _ | c
    · -- no creditor cancels this debtor: it is kept untouched
      rcases hr : phaseAGo ds C with ⟨ts1, kept1, rem1⟩
      have h' : (ts1, d :: kept1, rem1) = (ts, kept, rem) := by
        rw [← h]
        simp only [phaseAGo, hfind, hr]
      simp only [Prod.mk.injEq] at h'
      obtain ⟨rfl, rfl, rfl⟩ := h'
      obtain ⟨A1, A2, A3, A4, A5, A6, A7, A8, A9⟩ :=
        ih C ts1 kept1 rem1 hr (fun b hb => hD b (List.mem_cons_of_mem d hb)) hC hNds
      have hout_d : outSum d.id ts1 = 0 :=
        outSum_eq_zero fun t ht heq => hd_not_ds (heq ▸ (A1 t ht).2.2.1)
      refine ⟨?_, A2.cons₂ d, A3, ?_, ?_, A6, A7, by simp only [List.length_cons]; omega, A9⟩
      · intro t ht
        obtain ⟨h1, h2, h3, h4⟩ := A1 t ht
        exact ⟨h1, h2, by simp only [List.map_cons]; exact List.mem_cons_of_mem _ h3, h4⟩
      · intro b hb
        rcases List.mem_cons.mp hb with rfl | hb'
        · exact Or.inl (List.mem_cons_self _ _)
        · rcases A4 b hb' with h' | h'
          · exact Or.inl (List.mem_cons_of_mem _ h')
          · exact Or.inr h'
      · intro b hb
        rcases List.mem_cons.mp hb with rfl | hb'
        · exact hout_d
        · exact A5 b hb'
    · -- a creditor cancels this debtor exactly
      have hCN : (C.map Bal.id).Nodup := by
        rw [List.map_append, List.nodup_append] at hN
        exact hN.2.1
      have hfaith := removal_faithful d C hCN c hfind
      obtain ⟨hpc, as, bs, hCdec, has⟩ := List.find?_eq_some.mp hfind
      have hc_mem : c ∈ C := List.mem_of_find?_eq_some hfind
      have hc0 : 0 < c.balance := (hC c hc_mem).1
      have hcc : cents c.balance := (hC c hc_mem).2
      have hcancel : c.balance + d.balance = 0 := by
        apply cents_eq_zero_of_lt_eps (cents_add hcc hdc)
        have : qabs (c.balance + d.balance) < eps := by
          have := of_decide_eq_true hpc
          exact this
        exact this
      have hamt : qabs d.balance = c.balance := by
        rw [qabs_of_nonpos (le_of_lt hd0)]
        linarith
      have hCE : C.eraseP (credMatch d) = as ++ bs := by
        rw [hCdec, List.eraseP_append_right _ (fun b hb => by
          have := has b hb
          simp only [Bool.not_eq_true'] at this
          simp [this]), List.eraseP_cons_of_pos hpc]
      rcases hr : phaseAGo ds (as ++ bs) with ⟨ts1, kept1, rem1⟩
      have h' : (mkT d c (qabs d.balance) :: ts1, kept1, rem1) = (ts, kept, rem) := by
        rw [← h]
        simp only [phaseAGo, hfind, hfaith, hCE, hr]
      simp only [Prod.mk.injEq] at h'
      obtain ⟨rfl, rfl, rfl⟩ := h'
      have hCEsub : List.Sublist (as ++ bs) C := by
        rw [hCdec]
        exact List.Sublist.append (List.Sublist.refl as) (List.sublist_cons_self c bs)
      have hc_not_CE : c.id ∉ (as ++ bs).map Bal.id := by
        apply nodup_mid_not_mem
        rw [← hCdec]
        exact hCN
      obtain ⟨A1, A2, A3, A4, A5, A6, A7, A8, A9⟩ :=
        ih (as ++ bs) ts1 kept1 rem1 hr (fun b hb => hD b (List.mem_cons_of_mem d hb))
          (fun b hb => hC b (hCEsub.subset hb))
          (hN.sublist (List.Sublist.map Bal.id
            (List.Sublist.append (List.sublist_cons_self d ds) hCEsub)))
      have ht0_from : (mkT d c (qabs d.balance)).fromId = d.id := rfl
      have ht0_to : (mkT d c (qabs d.balance)).toId = c.id := rfl
      have ht0_amt : (mkT d c (qabs d.balance)).amount = qabs d.balance := rfl
      have hout_d : outSum d.id ts1 = 0 :=
        outSum_eq_zero fun t ht heq => hd_not_ds (heq ▸ (A1 t ht).2.2.1)
      have hin_c : inSum c.id ts1 = 0 := by
        refine inSum_eq_zero fun t ht heq => ?_
        obtain ⟨c', hc', htoid, _⟩ := (A1 t ht).2.2.2
        exact hc_not_CE (heq ▸ htoid ▸ List.mem_map_of_mem Bal.id hc')
      have hout_cons : ∀ x, outSum x (mkT d c (qabs d.balance) :: ts1)
          = (if d.id = x then qabs d.balance else 0) + outSum x ts1 := by
        intro x
        rw [outSum_cons, ht0_from, ht0_amt]
      have hin_cons : ∀ x, inSum x (mkT d c (qabs d.balance) :: ts1)
          = (if c.id = x then qabs d.balance else 0) + inSum x ts1 := by
        intro x
        rw [inSum_cons, ht0_to, ht0_amt]
      refine ⟨?_, A2.trans (List.sublist_cons_self d ds), A3.trans hCEsub,
        ?_, ?_, ?_, ?_, ?_, ?_⟩
      · intro t ht
        rcases List.mem_cons.mp ht with rfl | ht'
        · refine ⟨?_, ?_, ?_, c, hc_mem, ht0_to, by rw [ht0_amt, hamt]⟩
          · rw [ht0_amt, hamt]
            exact hc0
          · rw [ht0_amt, hamt]
            exact hcc
          · rw [ht0_from]
            simp
        · obtain ⟨h1, h2, h3, c', hc', h5⟩ := A1 t ht'
          exact ⟨h1, h2, by simp only [List.map_cons]; exact List.mem_cons_of_mem _ h3,
            c', hCEsub.subset hc', h5⟩
      · intro b hb
        rcases List.mem_cons.mp hb with rfl | hb'
        · refine Or.inr ?_
          rw [hout_cons, if_pos rfl, hout_d, qabs_of_nonpos (le_of_lt hd0)]
          ring
        · have hne : d.id ≠ b.id := fun heq =>
            hd_not_ds (heq ▸ List.mem_map_of_mem Bal.id hb')
          rcases A4 b hb' with h' | h'
          · exact Or.inl h'
          · refine Or.inr ?_
            rw [hout_cons, if_neg hne, zero_add]
            exact h'
      · intro b hb
        have hbds : b ∈ ds := A2.subset hb
        have hne : d.id ≠ b.id := fun heq =>
          hd_not_ds (heq ▸ List.mem_map_of_mem Bal.id hbds)
        rw [hout_cons, if_neg hne, zero_add]
        exact A5 b hb
      · intro b hb
        by_cases hbid : b.id = c.id
        · have hbc : b = c := List.inj_on_of_nodup_map hCN hb hc_mem hbid
          subst hbc
          refine Or.inr ?_
          rw [hin_cons, if_pos rfl, hin_c, hamt]
          ring
        · have hbCE : b ∈ as ++ bs := by
            rw [hCdec] at hb
            rcases List.mem_append.mp hb with h' | h'
            · exact List.mem_append.mpr (Or.inl h')
            · rcases List.mem_cons.mp h' with rfl | h''
              · exact absurd rfl hbid
              · exact List.mem_append.mpr (Or.inr h'')
          rcases A6 b hbCE with h' | h'
          · exact Or.inl h'
          · refine Or.inr ?_
            rw [hin_cons, if_neg (fun heq => hbid heq.symm), zero_add]
            exact h'
      · intro b hb
        have hbCE : b ∈ as ++ bs := A3.subset hb
        have hne : c.id ≠ b.id := fun heq =>
          hc_not_CE (heq ▸ List.mem_map_of_mem Bal.id hbCE)
        rw [hin_cons, if_neg hne, zero_add]
        exact A7 b hb
      · simp only [List.length_cons]
        omega
      · have hlen : C.length = as.length + bs.length + 1 := by
          rw [hCdec]
          simp only [List.length_append, List.length_cons]
          omega
        simp only [List.length_cons]
        rw [hlen]
        have hlen2 : (as ++ bs).length = as.length + bs.length := by simp
        rw [hlen2] at A9
        omega

/-! ### The balance calculator and the partition into debtors and creditors -/

theorem balancesOf_ids (ps : List Person) :
    (balancesOf ps).map Bal.id = ps.map Person.id := by
  unfold balancesOf
  rw [List.map_map]
  rfl

theorem balancesOf_length (ps : List Person) : (balancesOf ps).length = ps.length := by
  unfold balancesOf
  rw [List.length_map]

theorem balancesOf_cents {ps : List Person} {b : Bal} (hb : b ∈ balancesOf ps) :
    cents b.balance := by
  unfold balancesOf at hb
  rcases List.mem_map.mp hb with ⟨p, _, rfl⟩
  exact round2_cents _

theorem mem_debtorsOf {ps : List Person} {b : Bal} :
    b ∈ debtorsOf ps ↔ b ∈ balancesOf ps ∧ b.balance < 0 := by
  unfold debtorsOf
  rw [List.mem_filter]
  simp

theorem mem_creditorsOf {ps : List Person} {b : Bal} :
    b ∈ creditorsOf ps ↔ b ∈ balancesOf ps ∧ 0 < b.balance := by
  unfold creditorsOf
  rw [List.mem_filter]
  simp

theorem debtorsOf_sublist (ps : List Person) :
    List.Sublist (debtorsOf ps) (balancesOf ps) := List.filter_sublist _

theorem creditorsOf_sublist (ps : List Person) :
    List.Sublist (creditorsOf ps) (balancesOf ps) := List.filter_sublist _

theorem dc_ids_nodup {ps : List Person} (hN : (ps.map Person.id).Nodup) :
    ((debtorsOf ps ++ creditorsOf ps).map Bal.id).Nodup := by
  have hBN : ((balancesOf ps).map Bal.id).Nodup := by
    rw [balancesOf_ids]
    exact hN
  rw [List.map_append, List.nodup_append]
  refine ⟨hBN.sublist (List.Sublist.map _ (debtorsOf_sublist ps)),
    hBN.sublist (List.Sublist.map _ (creditorsOf_sublist ps)), ?_⟩
  intro x hxD hxC
  rcases List.mem_map.mp hxD with ⟨bd, hbd, rfl⟩
  rcases List.mem_map.mp hxC with ⟨bc, hbc, hid⟩
  obtain ⟨hbd1, hbd2⟩ := mem_debtorsOf.mp hbd
  obtain ⟨hbc1, hbc2⟩ := mem_creditorsOf.mp hbc
  have : bc = bd := List.inj_on_of_nodup_map hBN hbc1 hbd1 hid
  rw [this] at hbc2
  linarith

theorem debtors_neg_cents {ps : List Person} :
    ∀ b ∈ debtorsOf ps, b.balance < 0 ∧ cents b.balance := by
  intro b hb
  obtain ⟨h1, h2⟩ := mem_debtorsOf.mp hb
  exact ⟨h2, balancesOf_cents h1⟩

theorem creditors_pos_cents {ps : List Person} :
    ∀ b ∈ creditorsOf ps, 0 < b.balance ∧ cents b.balance := by
  intro b hb
  obtain ⟨h1, h2⟩ := mem_creditorsOf.mp hb
  exact ⟨h2, balancesOf_cents h1⟩

/-! ### Degenerate inputs -/

theorem balancesOf_nil : balancesOf [] = [] := rfl

theorem balancesOf_single (p : Person) : balancesOf [p] = [⟨p.id, p.name, 0⟩] := by
  unfold balancesOf avgPaid totalPaid
  simp only [List.map_cons, List.map_nil, List.length_cons, List.length_nil, List.sum_cons,
    List.sum_nil]
  norm_num
  rw [round2_zero]

theorem settlements_short {ps : List Person} (h : ps.length < 2) : settlements ps = [] := by
  unfold settlements
  rw [if_pos h]

/-- If there are no debtors, the engine emits nothing: Phase A scans an empty
debtor list and the waterfall loop never runs. -/
theorem settlements_no_debtors {ps : List Person} (h : debtorsOf ps = []) :
    settlements ps = [] := by
  unfold settlements
  split
  · rfl
  · rw [h]
    have hA : phaseA [] (creditorsOf ps)
        = (([], [], creditorsOf ps) : List Settlement × List Bal × List Bal) := rfl
    rw [hA]
    simp [phaseBFuel_nil_left]

/-- If there are no creditors, Phase A finds no match for any debtor and the
waterfall loop never runs. -/
theorem phaseAGo_no_creditors : ∀ D : List Bal, phaseAGo D [] = ([], D, []) := by
  intro D
  induction D with
  | nil => rfl
  | cons d ds ih => simp [phaseAGo, ih]

theorem settlements_no_creditors {ps : List Person} (h : creditorsOf ps = []) :
    settlements ps = [] := by
  unfold settlements
  split
  · rfl
  · rw [h]
    unfold phaseA
    rw [phaseAGo_no_creditors]
    simp [phaseBFuel_nil_right]

theorem debtorsOf_nil : debtorsOf [] = [] := rfl

theorem creditorsOf_nil : creditorsOf [] = [] := rfl

theorem debtorsOf_single (p : Person) : debtorsOf [p] = [] := by
  unfold debtorsOf
  rw [balancesOf_single]
  simp

theorem creditorsOf_single (p : Person) : creditorsOf [p] = [] := by
  unfold creditorsOf
  rw [balancesOf_single]
  simp

theorem dc_rev_ids_nodup {ps : List Person} (hN : (ps.map Person.id).Nodup) :
    (((debtorsOf ps).reverse ++ creditorsOf ps).map Bal.id).Nodup := by
  have h := dc_ids_nodup hN
  rw [List.map_append, List.nodup_append] at h ⊢
  obtain ⟨h1, h2, h3⟩ := h
  refine ⟨?_, h2, ?_⟩
  · rw [List.map_reverse, List.nodup_reverse]
    exact h1
  · intro x hx
    apply h3
    rw [List.map_reverse, List.mem_reverse] at hx
    exact hx

theorem ids_nodup_of_subsets {k r D C : List Bal}
    (hk : ∀ b ∈ k, b ∈ D) (hr : ∀ b ∈ r, b ∈ C)
    (hkN : (k.map Bal.id).Nodup) (hrN : (r.map Bal.id).Nodup)
    (hDC : ((D ++ C).map Bal.id).Nodup) :
    ((k ++ r).map Bal.id).Nodup := by
  rw [List.map_append, List.nodup_append] at hDC ⊢
  refine ⟨hkN, hrN, ?_⟩
  intro x hx1 hx2
  rcases List.mem_map.mp hx1 with ⟨b, hb, rfl⟩
  rcases List.mem_map.mp hx2 with ⟨b2, hb2, hid⟩
  exact hDC.2.2 (List.mem_map_of_mem Bal.id (hk b hb))
    (hid ▸ List.mem_map_of_mem Bal.id (hr b2 hb2))

/-! ### Whole-engine accounting -/

/-- Per-id accounting of the full engine, combining both phases: transfers
are positive cents from debtor ids to creditor ids; each debtor receives
nothing and pays out between `0` and its (rounded) debt; each creditor pays
nothing and receives between `0` and its (rounded) due; and all debtors are
settled exactly, or all creditors are. -/
theorem settlements_accounting (ps : List Person) (hN : (ps.map Person.id).Nodup) :
    (∀ t ∈ settlements ps, 0 < t.amount ∧ cents t.amount
        ∧ t.fromId ∈ (debtorsOf ps).map Bal.id ∧ t.toId ∈ (creditorsOf ps).map Bal.id)
    ∧ (∀ b ∈ debtorsOf ps, inSum b.id (settlements ps) = 0
        ∧ 0 ≤ outSum b.id (settlements ps) ∧ outSum b.id (settlements ps) ≤ -b.balance)
    ∧ (∀ b ∈ creditorsOf ps, outSum b.id (settlements ps) = 0
        ∧ 0 ≤ inSum b.id (settlements ps) ∧ inSum b.id (settlements ps) ≤ b.balance)
    ∧ ((∀ b ∈ debtorsOf ps, outSum b.id (settlements ps) = -b.balance)
        ∨ (∀ b ∈ creditorsOf ps, inSum b.id (settlements ps) = b.balance)) := by
  by_cases hlen : ps.length < 2
  · -- degenerate inputs: no transfers and no debtors (or creditors) at all
    rw [settlements_short hlen]
    have hDnil : debtorsOf ps = [] := by
      match ps, hlen with
      | [], _ => exact debtorsOf_nil
      | [p], _ => exact debtorsOf_single p
    refine ⟨by simp, ?_, ?_, Or.inl (by rw [hDnil]; simp)⟩
    · intro b hb
      have := (debtors_neg_cents b hb).1
      exact ⟨rfl, le_refl 0, by simp only [outSum]; linarith⟩
    · intro b hb
      have := (creditors_pos_cents b hb).1
      exact ⟨rfl, le_refl 0, by simp only [inSum]; linarith⟩
  · rcases hA : phaseAGo (debtorsOf ps).reverse (creditorsOf ps) with ⟨tsA, keptRev, rem⟩
    have hphaseA : phaseA (debtorsOf ps) (creditorsOf ps) = (tsA, keptRev.reverse, rem) := by
      unfold phaseA
      rw [hA]
    obtain ⟨tsB, hB⟩ := phaseBFuel_isSome (keptRev.reverse.length + rem.length)
      keptRev.reverse rem (le_refl _)
    have hset : settlements ps = tsA ++ tsB := by
      unfold settlements
      rw [if_neg hlen]
      simp only [hphaseA, hB]
      rfl
    have hDrev : ∀ b ∈ (debtorsOf ps).reverse, b.balance < 0 ∧ cents b.balance :=
      fun b hb => debtors_neg_cents b (List.mem_reverse.mp hb)
    obtain ⟨A1, A2, A3, A4, A5, A6, A7, A8, A9⟩ :=
      phaseA_accounting (debtorsOf ps).reverse (creditorsOf ps) tsA keptRev rem hA
        hDrev creditors_pos_cents (dc_rev_ids_nodup hN)
    -- decompositions of the Nodup facts
    have hdc := dc_ids_nodup hN
    rw [List.map_append, List.nodup_append] at hdc
    obtain ⟨hDN, hCN, hDisj⟩ := hdc
    have hDrevN : (((debtorsOf ps).reverse).map Bal.id).Nodup := by
      rw [List.map_reverse, List.nodup_reverse]
      exact hDN
    -- the Phase B call and its hypotheses
    have hkeptD : ∀ b ∈ keptRev.reverse, b ∈ debtorsOf ps := by
      intro b hb
      exact List.mem_reverse.mp (A2.subset (List.mem_reverse.mp hb))
    have hremC : ∀ b ∈ rem, b ∈ creditorsOf ps := fun b hb => A3.subset hb
    have hkRN : ((keptRev.reverse).map Bal.id).Nodup := by
      rw [List.map_reverse, List.nodup_reverse]
      exact hDrevN.sublist (List.Sublist.map _ A2)
    have hremN : (rem.map Bal.id).Nodup := hCN.sublist (List.Sublist.map _ A3)
    obtain ⟨B1, B2, B3, B4⟩ :=
      phaseB_accounting (keptRev.reverse.length + rem.length) keptRev.reverse rem tsB hB
        (fun b hb => debtors_neg_cents b (hkeptD b hb))
        (fun b hb => creditors_pos_cents b (hremC b hb))
        (ids_nodup_of_subsets hkeptD hremC hkRN hremN (dc_ids_nodup hN))
    -- id membership transfers
    have hrevids : ∀ x : ℕ, x ∈ ((debtorsOf ps).reverse).map Bal.id
        ↔ x ∈ (debtorsOf ps).map Bal.id := by
      intro x
      rw [List.map_reverse, List.mem_reverse]
    have hkrevids : ∀ x : ℕ, x ∈ (keptRev.reverse).map Bal.id
        ↔ x ∈ keptRev.map Bal.id := by
      intro x
      rw [List.map_reverse, List.mem_reverse]
    have hkept_sub_D : ∀ x : ℕ, x ∈ keptRev.map Bal.id → x ∈ (debtorsOf ps).map Bal.id := by
      intro x hx
      rcases List.mem_map.mp hx with ⟨b, hb, rfl⟩
      exact List.mem_map_of_mem Bal.id (List.mem_reverse.mp (A2.subset hb))
    have hrem_sub_C : ∀ x : ℕ, x ∈ rem.map Bal.id → x ∈ (creditorsOf ps).map Bal.id := by
      intro x hx
      rcases List.mem_map.mp hx with ⟨b, hb, rfl⟩
      exact List.mem_map_of_mem Bal.id (A3.subset hb)
    -- from/to ids of each part
    have hA_from : ∀ t ∈ tsA, t.fromId ∈ (debtorsOf ps).map Bal.id :=
      fun t ht => (hrevids _).mp (A1 t ht).2.2.1
    have hA_to : ∀ t ∈ tsA, t.toId ∈ (creditorsOf ps).map Bal.id := by
      intro t ht
      obtain ⟨c, hc, htoid, _⟩ := (A1 t ht).2.2.2
      exact htoid ▸ List.mem_map_of_mem Bal.id hc
    have hB_from : ∀ t ∈ tsB, t.fromId ∈ (debtorsOf ps).map Bal.id :=
      fun t ht => hkept_sub_D _ ((hkrevids _).mp (B1 t ht).2.2.1)
    have hB_to : ∀ t ∈ tsB, t.toId ∈ (creditorsOf ps).map Bal.id :=
      fun t ht => hrem_sub_C _ (B1 t ht).2.2.2
    -- Phase A settles a debtor completely or leaves it untouched
    have houtA_D : ∀ b ∈ debtorsOf ps,
        (b ∈ keptRev ∧ outSum b.id tsA = 0)
          ∨ (b.id ∉ keptRev.map Bal.id ∧ outSum b.id tsA = -b.balance) := by
      intro b hb
      have hbrev : b ∈ (debtorsOf ps).reverse := List.mem_reverse.mpr hb
      rcases A4 b hbrev with hk | hs
      · exact Or.inl ⟨hk, A5 b hk⟩
      · by_cases hk2 : b ∈ keptRev
        · exfalso
          have h0 := A5 b hk2
          have := (debtors_neg_cents b hb).1
          rw [h0] at hs
          linarith
        · refine Or.inr ⟨?_, hs⟩
          intro hid
          exact hk2 (mem_of_id_mem_sublist A2 hDrevN hbrev hid)
    have hinA_C : ∀ b ∈ creditorsOf ps,
        (b ∈ rem ∧ inSum b.id tsA = 0)
          ∨ (b.id ∉ rem.map Bal.id ∧ inSum b.id tsA = b.balance) := by
      intro b hb
      rcases A6 b hb with hk | hs
      · exact Or.inl ⟨hk, A7 b hk⟩
      · by_cases hk2 : b ∈ rem
        · exfalso
          have h0 := A7 b hk2
          have := (creditors_pos_cents b hb).1
          rw [h0] at hs
          linarith
        · refine Or.inr ⟨?_, hs⟩
          intro hid
          exact hk2 (mem_of_id_mem_sublist A3 hCN hb hid)
    -- Phase B is silent for ids outside its working lists
    have houtB_zero : ∀ x : ℕ, x ∉ keptRev.map Bal.id → outSum x tsB = 0 := by
      intro x hx
      refine outSum_eq_zero fun t ht heq => hx ((hkrevids _).mp (heq ▸ (B1 t ht).2.2.1))
    have hinB_zero : ∀ x : ℕ, x ∉ rem.map Bal.id → inSum x tsB = 0 := by
      intro x hx
      refine inSum_eq_zero fun t ht heq => hx (heq ▸ (B1 t ht).2.2.2)
    refine ⟨?_, ?_, ?_, ?_⟩
    · -- every transfer is a positive number of cents, debtor to creditor
      intro t ht
      rw [hset, List.mem_append] at ht
      rcases ht with ht | ht
      · exact ⟨(A1 t ht).1, (A1 t ht).2.1, hA_from t ht, hA_to t ht⟩
      · exact ⟨(B1 t ht).1, (B1 t ht).2.1, hB_from t ht, hB_to t ht⟩
    · -- debtors: no incoming, bounded outgoing
      intro b hb
      have hbD : b.id ∈ (debtorsOf ps).map Bal.id := List.mem_map_of_mem Bal.id hb
      have hbnotC : b.id ∉ (creditorsOf ps).map Bal.id := fun hc => hDisj hbD hc
      have hin0 : inSum b.id (settlements ps) = 0 := by
        rw [hset, inSum_append,
          inSum_eq_zero (fun t ht heq => hbnotC (by rw [← heq]; exact hA_to t ht)),
          inSum_eq_zero (fun t ht heq => hbnotC (by rw [← heq]; exact hB_to t ht))]
        ring
      refine ⟨hin0, ?_, ?_⟩
      all_goals
        rw [hset, outSum_append]
        rcases houtA_D b hb with ⟨hk, hA0⟩ | ⟨hknot, hAfull⟩
      · rw [hA0]
        have := (B2 b (List.mem_reverse.mpr hk)).1
        linarith
      · rw [hAfull, houtB_zero b.id hknot]
        have := (debtors_neg_cents b hb).1
        linarith
      · rw [hA0]
        have := (B2 b (List.mem_reverse.mpr hk)).2
        linarith
      · rw [hAfull, houtB_zero b.id hknot]
        linarith
    · -- creditors: no outgoing, bounded incoming
      intro b hb
      have hbC : b.id ∈ (creditorsOf ps).map Bal.id := List.mem_map_of_mem Bal.id hb
      have hbnotD : b.id ∉ (debtorsOf ps).map Bal.id := fun hd => hDisj hd hbC
      have hout0 : outSum b.id (settlements ps) = 0 := by
        rw [hset, outSum_append,
          outSum_eq_zero (fun t ht heq => hbnotD (by rw [← heq]; exact hA_from t ht)),
          outSum_eq_zero (fun t ht heq => hbnotD (by rw [← heq]; exact hB_from t ht))]
        ring
      refine ⟨hout0, ?_, ?_⟩
      all_goals
        rw [hset, inSum_append]
        rcases hinA_C b hb with ⟨hk, hA0⟩ | ⟨hknot, hAfull⟩
      · rw [hA0]
        have := (B3 b hk).1
        linarith
      · rw [hAfull, hinB_zero b.id hknot]
        have := (creditors_pos_cents b hb).1
        linarith
      · rw [hA0]
        have := (B3 b hk).2
        linarith
      · rw [hAfull, hinB_zero b.id hknot]
        linarith
    · -- one side fully settled
      rcases B4 with hBL | hBR
      · left
        intro b hb
        rw [hset, outSum_append]
        rcases houtA_D b hb with ⟨hk, hA0⟩ | ⟨hknot, hAfull⟩
        · rw [hA0, hBL b (List.mem_reverse.mpr hk)]
          ring
        · rw [hAfull, houtB_zero b.id hknot]
          ring
      · right
        intro b hb
        rw [hset, inSum_append]
        rcases hinA_C b hb with ⟨hk, hA0⟩ | ⟨hknot, hAfull⟩
        · rw [hA0, hBR b hk]
          ring
        · rw [hAfull, hinB_zero b.id hknot]
          ring

/-! ### A zero residual sum settles both sides exactly -/

theorem balance_sum_split (l : List Bal) :
    (l.map Bal.balance).sum = ((l.filter fun b => b.balance < 0).map Bal.balance).sum
      + ((l.filter fun b => 0 < b.balance).map Bal.balance).sum := by
  induction l with
  | nil => simp
  | cons b l ih =>
    rcases lt_trichotomy b.balance 0 with h | h | h
    · rw [List.map_cons, List.sum_cons,
        List.filter_cons_of_pos (by simpa using h),
        List.filter_cons_of_neg (by simp; linarith),
        List.map_cons, List.sum_cons, ih]
      ring
    · rw [List.map_cons, List.sum_cons,
        List.filter_cons_of_neg (by simp; linarith),
        List.filter_cons_of_neg (by simp; linarith), ih, h]
      ring
    · rw [List.map_cons, List.sum_cons,
        List.filter_cons_of_neg (by simp; linarith),
        List.filter_cons_of_pos (by simpa using h),
        List.map_cons, List.sum_cons, ih]
      ring

theorem sum_eq_zero_of_nonneg {l : List Bal} {f : Bal → ℚ}
    (h0 : ∀ b ∈ l, 0 ≤ f b) (hsum : (l.map f).sum = 0) : ∀ b ∈ l, f b = 0 := by
  induction l with
  | nil => simp
  | cons b l ih =>
    simp only [List.map_cons, List.sum_cons] at hsum
    have hb0 : 0 ≤ f b := h0 b (List.mem_cons_self b l)
    have hrest : 0 ≤ (l.map f).sum := by
      apply List.sum_nonneg
      intro x hx
      rcases List.mem_map.mp hx with ⟨b', hb', rfl⟩
      exact h0 b' (List.mem_cons_of_mem b hb')
    have hfb : f b = 0 := by linarith
    intro b' hb'
    rcases List.mem_cons.mp hb' with rfl | hb''
    · exact hfb
    · exact ih (fun x hx => h0 x (List.mem_cons_of_mem b hx)) (by linarith) b' hb''

theorem sum_map_sub {α : Type} (l : List α) (f g : α → ℚ) :
    (l.map fun b => f b - g b).sum = (l.map f).sum - (l.map g).sum := by
  induction l with
  | nil => simp
  | cons b l ih =>
    simp only [List.map_cons, List.sum_cons, ih]
    ring

theorem sum_map_congr {α : Type} {l : List α} {f g : α → ℚ}
    (h : ∀ b ∈ l, f b = g b) : (l.map f).sum = (l.map g).sum := by
  induction l with
  | nil => simp
  | cons b l ih =>
    simp only [List.map_cons, List.sum_cons]
    rw [h b (List.mem_cons_self b l), ih (fun x hx => h x (List.mem_cons_of_mem b hx))]

theorem sum_map_const {α : Type} (l : List α) (q : ℚ) :
    (l.map fun _ => q).sum = l.length * q := by
  induction l with
  | nil => simp
  | cons a l ih =>
    simp only [List.map_cons, List.sum_cons, List.length_cons, ih]
    push_cast
    ring

theorem qabs_add_le (a b : ℚ) : qabs (a + b) ≤ qabs a + qabs b := by
  rw [qabs_le_iff]
  have ha1 := qabs_le_iff.mp (le_refl (qabs a))
  have hb1 := qabs_le_iff.mp (le_refl (qabs b))
  constructor
  · linarith [ha1.1, hb1.1]
  · linarith [ha1.2, hb1.2]

theorem sum_qabs_bound {α : Type} (l : List α) (g : α → ℚ) (c : ℚ)
    (h : ∀ p ∈ l, qabs (g p) ≤ c) : qabs ((l.map g).sum) ≤ l.length * c := by
  induction l with
  | nil =>
    simp only [List.map_nil, List.sum_nil, List.length_nil]
    rw [show qabs 0 = 0 from rfl]
    norm_num
  | cons p l ih =>
    simp only [List.map_cons, List.sum_cons, List.length_cons]
    have h1 := qabs_add_le (g p) ((l.map g).sum)
    have h2 := h p (List.mem_cons_self p l)
    have h3 := ih (fun q hq => h q (List.mem_cons_of_mem p hq))
    push_cast
    nlinarith [h1, h2, h3]

/-- When the rounded residuals sum to exactly zero, no balance is left over:
every debtor pays exactly its rounded debt and every creditor receives
exactly its rounded due. -/
theorem settle_all_of_sum_zero (ps : List Person) (hN : (ps.map Person.id).Nodup)
    (hsum : ((balancesOf ps).map Bal.balance).sum = 0) :
    (∀ b ∈ debtorsOf ps, outSum b.id (settlements ps) = -b.balance)
    ∧ (∀ b ∈ creditorsOf ps, inSum b.id (settlements ps) = b.balance) := by
  obtain ⟨P1, P2, P3, P4⟩ := settlements_accounting ps hN
  have hdc := dc_ids_nodup hN
  rw [List.map_append, List.nodup_append] at hdc
  obtain ⟨hDN, hCN, _⟩ := hdc
  have hDC0 : ((debtorsOf ps).map Bal.balance).sum
      + ((creditorsOf ps).map Bal.balance).sum = 0 := by
    have := balance_sum_split (balancesOf ps)
    unfold debtorsOf creditorsOf
    linarith
  have houtT : ((debtorsOf ps).map fun b => outSum b.id (settlements ps)).sum
      = totalAmount (settlements ps) := by
    have h := sum_outSum hDN (fun t ht => (P1 t ht).2.2.1)
    rw [List.map_map] at h
    simpa [Function.comp] using h
  have hinT : ((creditorsOf ps).map fun b => inSum b.id (settlements ps)).sum
      = totalAmount (settlements ps) := by
    have h := sum_inSum hCN (fun t ht => (P1 t ht).2.2.2)
    rw [List.map_map] at h
    simpa [Function.comp] using h
  rcases P4 with hL | hR
  · refine ⟨hL, ?_⟩
    -- debtors settled: the total moved equals the creditors' total due
    have hT : totalAmount (settlements ps) = ((creditorsOf ps).map Bal.balance).sum := by
      rw [← houtT, sum_map_congr hL]
      have : ((debtorsOf ps).map fun b => -b.balance).sum
          = -(((debtorsOf ps).map Bal.balance).sum) := by
        induction (debtorsOf ps) with
        | nil => simp
        | cons b l ih =>
          simp only [List.map_cons, List.sum_cons, ih]
          ring
      rw [this]
      linarith
    have hzero : ((creditorsOf ps).map fun b => b.balance
        - inSum b.id (settlements ps)).sum = 0 := by
      rw [sum_map_sub, hinT, hT]
      ring
    intro b hb
    have := sum_eq_zero_of_nonneg (fun b' hb' => by linarith [(P3 b' hb').2.2]) hzero b hb
    linarith
  · refine ⟨?_, hR⟩
    have hT : totalAmount (settlements ps) = ((creditorsOf ps).map Bal.balance).sum := by
      rw [← hinT, sum_map_congr hR]
    have hzero : ((debtorsOf ps).map fun b => -b.balance
        - outSum b.id (settlements ps)).sum = 0 := by
      rw [sum_map_sub, houtT, hT]
      have : ((debtorsOf ps).map fun b => -b.balance).sum
          = -(((debtorsOf ps).map Bal.balance).sum) := by
        induction (debtorsOf ps) with
        | nil => simp
        | cons b l ih =>
          simp only [List.map_cons, List.sum_cons, ih]
          ring
      rw [this]
      linarith
    intro b hb
    have := sum_eq_zero_of_nonneg (fun b' hb' => by linarith [(P2 b' hb').2.2]) hzero b hb
    linarith

/-! ### From balance records back to participants -/

/-- The balance record the engine builds for a participant. -/
def balOf (ps : List Person) (p : Person) : Bal :=
  ⟨p.id, p.name, round2 (p.paid - avgPaid ps)⟩

theorem balOf_mem {ps : List Person} {p : Person} (hp : p ∈ ps) :
    balOf ps p ∈ balancesOf ps := List.mem_map_of_mem _ hp

theorem id_in_debtors_iff {ps : List Person} (hN : (ps.map Person.id).Nodup)
    {p : Person} (hp : p ∈ ps) :
    p.id ∈ (debtorsOf ps).map Bal.id ↔ round2 (p.paid - avgPaid ps) < 0 := by
  have hBN : ((balancesOf ps).map Bal.id).Nodup := by
    rw [balancesOf_ids]
    exact hN
  constructor
  · intro hid
    rcases List.mem_map.mp hid with ⟨b, hb, hbid⟩
    obtain ⟨hb1, hb2⟩ := mem_debtorsOf.mp hb
    have : b = balOf ps p :=
      List.inj_on_of_nodup_map hBN hb1 (balOf_mem hp) hbid
    rw [this] at hb2
    exact hb2
  · intro hr
    exact List.mem_map.mpr ⟨balOf ps p, mem_debtorsOf.mpr ⟨balOf_mem hp, hr⟩, rfl⟩

theorem id_in_creditors_iff {ps : List Person} (hN : (ps.map Person.id).Nodup)
    {p : Person} (hp : p ∈ ps) :
    p.id ∈ (creditorsOf ps).map Bal.id ↔ 0 < round2 (p.paid - avgPaid ps) := by
  have hBN : ((balancesOf ps).map Bal.id).Nodup := by
    rw [balancesOf_ids]
    exact hN
  constructor
  · intro hid
    rcases List.mem_map.mp hid with ⟨b, hb, hbid⟩
    obtain ⟨hb1, hb2⟩ := mem_creditorsOf.mp hb
    have : b = balOf ps p :=
      List.inj_on_of_nodup_map hBN hb1 (balOf_mem hp) hbid
    rw [this] at hb2
    exact hb2
  · intro hr
    exact List.mem_map.mpr ⟨balOf ps p, mem_creditorsOf.mpr ⟨balOf_mem hp, hr⟩, rfl⟩

/-- Per-participant accounting, by the sign of the rounded residual. -/
theorem participant_accounting (ps : List Person) (hN : (ps.map Person.id).Nodup) :
    ∀ p ∈ ps,
      (round2 (p.paid - avgPaid ps) < 0 →
          inSum p.id (settlements ps) = 0
          ∧ 0 ≤ outSum p.id (settlements ps)
          ∧ outSum p.id (settlements ps) ≤ -(round2 (p.paid - avgPaid ps)))
      ∧ (0 < round2 (p.paid - avgPaid ps) →
          outSum p.id (settlements ps) = 0
          ∧ 0 ≤ inSum p.id (settlements ps)
          ∧ inSum p.id (settlements ps) ≤ round2 (p.paid - avgPaid ps))
      ∧ (round2 (p.paid - avgPaid ps) = 0 →
          outSum p.id (settlements ps) = 0 ∧ inSum p.id (settlements ps) = 0) := by
  obtain ⟨P1, P2, P3, _⟩ := settlements_accounting ps hN
  intro p hp
  refine ⟨?_, ?_, ?_⟩
  · intro hr
    have hmem : balOf ps p ∈ debtorsOf ps := mem_debtorsOf.mpr ⟨balOf_mem hp, hr⟩
    exact P2 (balOf ps p) hmem
  · intro hr
    have hmem : balOf ps p ∈ creditorsOf ps := mem_creditorsOf.mpr ⟨balOf_mem hp, hr⟩
    exact P3 (balOf ps p) hmem
  · intro hr
    have hnotD : p.id ∉ (debtorsOf ps).map Bal.id := by
      rw [id_in_debtors_iff hN hp]
      linarith
    have hnotC : p.id ∉ (creditorsOf ps).map Bal.id := by
      rw [id_in_creditors_iff hN hp]
      linarith
    constructor
    · exact outSum_eq_zero fun t ht heq => hnotD (by rw [← heq]; exact (P1 t ht).2.2.1)
    · exact inSum_eq_zero fun t ht heq => hnotC (by rw [← heq]; exact (P1 t ht).2.2.2)

/-- The settled-side disjunction at participant level: either every debtor
participant pays exactly its rounded debt, or every creditor participant
receives exactly its rounded due. -/
theorem participant_settled (ps : List Person) (hN : (ps.map Person.id).Nodup) :
    (∀ p ∈ ps, round2 (p.paid - avgPaid ps) < 0 →
        outSum p.id (settlements ps) = -(round2 (p.paid - avgPaid ps)))
    ∨ (∀ p ∈ ps, 0 < round2 (p.paid - avgPaid ps) →
        inSum p.id (settlements ps) = round2 (p.paid - avgPaid ps)) := by
  obtain ⟨_, _, _, P4⟩ := settlements_accounting ps hN
  rcases P4 with hL | hR
  · left
    intro p hp hr
    exact hL (balOf ps p) (mem_debtorsOf.mpr ⟨balOf_mem hp, hr⟩)
  · right
    intro p hp hr
    exact hR (balOf ps p) (mem_creditorsOf.mpr ⟨balOf_mem hp, hr⟩)

/-- Participant-level version of `settle_all_of_sum_zero`: with a zero
residual sum, each participant's net incoming minus outgoing equals its
rounded residual. -/
theorem participant_settle_all (ps : List Person) (hN : (ps.map Person.id).Nodup)
    (hsum : ((balancesOf ps).map Bal.balance).sum = 0) :
    ∀ p ∈ ps, inSum p.id (settlements ps) - outSum p.id (settlements ps)
      = round2 (p.paid - avgPaid ps) := by
  obtain ⟨hD, hC⟩ := settle_all_of_sum_zero ps hN hsum
  intro p hp
  obtain ⟨q1, q2, q3⟩ := participant_accounting ps hN p hp
  rcases lt_trichotomy (round2 (p.paid - avgPaid ps)) 0 with hr | hr | hr
  · have hout : outSum p.id (settlements ps) = -(round2 (p.paid - avgPaid ps)) :=
      hD (balOf ps p) (mem_debtorsOf.mpr ⟨balOf_mem hp, hr⟩)
    have hin := (q1 hr).1
    rw [hin, hout]
    ring
  · obtain ⟨hout, hin⟩ := q3 hr
    rw [hout, hin, hr]
    ring
  · have hin : inSum p.id (settlements ps) = round2 (p.paid - avgPaid ps) :=
      hC (balOf ps p) (mem_creditorsOf.mpr ⟨balOf_mem hp, hr⟩)
    have hout := (q2 hr).1
    rw [hout, hin]
    ring

/-! ### Re-settlement after applying the transfers -/

theorem rerun_nonneg {x N : ℚ} (hE : qabs (round2 x - x) < 1/200)
    (hcase : (round2 x < 0 ∧ N = -(round2 x))
      ∨ (0 < round2 x ∧ -(round2 x) ≤ N ∧ N ≤ 0)
      ∨ (round2 x = 0 ∧ N = 0)) :
    0 ≤ round2 (x + N) := by
  rw [qabs_lt_iff] at hE
  obtain ⟨e1, e2⟩ := hE
  rcases hcase with ⟨h1, h2⟩ | ⟨h1, h2, h3⟩ | ⟨h1, h2⟩
  · have h0 : round2 (x + N) = 0 := by
      rw [round2_eq_zero_iff]
      constructor
      · linarith
      · linarith
    linarith
  · apply round2_nonneg_of
    linarith
  · rw [h2, add_zero]
    rw [round2_eq_zero_iff] at h1
    rw [show round2 x = 0 from round2_eq_zero_iff.mpr h1]

theorem rerun_nonpos {x N : ℚ} (hE : qabs (round2 x - x) < 1/200)
    (hcase : (0 < round2 x ∧ N = -(round2 x))
      ∨ (round2 x < 0 ∧ 0 ≤ N ∧ N ≤ -(round2 x))
      ∨ (round2 x = 0 ∧ N = 0)) :
    round2 (x + N) ≤ 0 := by
  rw [qabs_lt_iff] at hE
  obtain ⟨e1, e2⟩ := hE
  rcases hcase with ⟨h1, h2⟩ | ⟨h1, h2, h3⟩ | ⟨h1, h2⟩
  · have h0 : round2 (x + N) = 0 := by
      rw [round2_eq_zero_iff]
      constructor
      · linarith
      · linarith
    linarith
  · apply round2_nonpos_of
    linarith
  · rw [h2, add_zero]
    rw [round2_eq_zero_iff] at h1
    rw [show round2 x = 0 from round2_eq_zero_iff.mpr h1]

/-- Applying the emitted transfers to the paid amounts (payers' contributions
grow, payees' shrink) and re-running the engine yields no transfers, provided
no exact residual sits on a rounding tie (an odd multiple of half a cent). -/
theorem resettle_empty (ps : List Person) (hN : (ps.map Person.id).Nodup)
    (hties : ∀ p ∈ ps, ¬ isTie (p.paid - avgPaid ps)) :
    settlements (applyTransfers ps (settlements ps)) = [] := by
  obtain ⟨P1, _, _, _⟩ := settlements_accounting ps hN
  have hfromIds : ∀ t ∈ settlements ps, t.fromId ∈ ps.map Person.id := by
    intro t ht
    rcases List.mem_map.mp (P1 t ht).2.2.1 with ⟨b, hb, heq⟩
    rw [← heq, ← balancesOf_ids]
    exact List.mem_map_of_mem Bal.id (mem_debtorsOf.mp hb).1
  have htoIds : ∀ t ∈ settlements ps, t.toId ∈ ps.map Person.id := by
    intro t ht
    rcases List.mem_map.mp (P1 t ht).2.2.2 with ⟨b, hb, heq⟩
    rw [← heq, ← balancesOf_ids]
    exact List.mem_map_of_mem Bal.id (mem_creditorsOf.mp hb).1
  have hout_total : (ps.map fun p => outSum p.id (settlements ps)).sum
      = totalAmount (settlements ps) := by
    have h := sum_outSum hN hfromIds
    rw [List.map_map] at h
    simpa [Function.comp] using h
  have hin_total : (ps.map fun p => inSum p.id (settlements ps)).sum
      = totalAmount (settlements ps) := by
    have h := sum_inSum hN htoIds
    rw [List.map_map] at h
    simpa [Function.comp] using h
  have hlen2 : (applyTransfers ps (settlements ps)).length = ps.length := by
    unfold applyTransfers
    rw [List.length_map]
  have htot : totalPaid (applyTransfers ps (settlements ps)) = totalPaid ps := by
    unfold applyTransfers totalPaid
    rw [List.map_map]
    have hcomp : (ps.map (Person.paid ∘ fun p =>
        { p with paid := p.paid + outSum p.id (settlements ps)
            - inSum p.id (settlements ps) })).sum
        = (ps.map fun p => (p.paid + outSum p.id (settlements ps))
            - inSum p.id (settlements ps)).sum := rfl
    rw [hcomp, sum_map_sub, sum_map_add, hout_total, hin_total]
    ring
  have havg : avgPaid (applyTransfers ps (settlements ps)) = avgPaid ps := by
    unfold avgPaid
    rw [hlen2, htot]
  have hacc := participant_accounting ps hN
  have hErr : ∀ p ∈ ps, qabs (round2 (p.paid - avgPaid ps) - (p.paid - avgPaid ps)) < 1/200 :=
    fun p hp => round2_err_lt_of_not_tie (hties p hp)
  -- membership in the re-run balances comes from an original participant
  have hbal2 : ∀ b ∈ balancesOf (applyTransfers ps (settlements ps)),
      ∃ p ∈ ps, b.balance = round2 ((p.paid - avgPaid ps)
        + (outSum p.id (settlements ps) - inSum p.id (settlements ps))) := by
    intro b hb
    unfold balancesOf applyTransfers at hb
    rw [List.map_map] at hb
    rcases List.mem_map.mp hb with ⟨p, hp, rfl⟩
    refine ⟨p, hp, ?_⟩
    show round2 (p.paid + outSum p.id (settlements ps) - inSum p.id (settlements ps)
        - avgPaid (applyTransfers ps (settlements ps))) = _
    rw [havg]
    congr 1
    ring
  rcases participant_settled ps hN with hL | hR
  · -- every debtor settled: the re-run has no debtors
    apply settlements_no_debtors
    unfold debtorsOf
    rw [List.filter_eq_nil_iff]
    intro b hb
    rcases hbal2 b hb with ⟨p, hp, hbal⟩
    simp only [decide_eq_true_eq]
    rw [hbal]
    apply not_lt.mpr
    apply rerun_nonneg (hErr p hp)
    obtain ⟨q1, q2, q3⟩ := hacc p hp
    rcases lt_trichotomy (round2 (p.paid - avgPaid ps)) 0 with hr | hr | hr
    · obtain ⟨hin0, _, _⟩ := q1 hr
      have hout := hL p hp hr
      exact Or.inl ⟨hr, by rw [hout, hin0]; ring⟩
    · obtain ⟨hout0, hin0⟩ := q3 hr
      exact Or.inr (Or.inr ⟨hr, by rw [hout0, hin0]; ring⟩)
    · obtain ⟨hout0, hin1, hin2⟩ := q2 hr
      refine Or.inr (Or.inl ⟨hr, ?_, ?_⟩)
      · rw [hout0]
        linarith
      · rw [hout0]
        linarith
  · -- every creditor settled: the re-run has no creditors
    apply settlements_no_creditors
    unfold creditorsOf
    rw [List.filter_eq_nil_iff]
    intro b hb
    rcases hbal2 b hb with ⟨p, hp, hbal⟩
    simp only [decide_eq_true_eq]
    rw [hbal]
    apply not_lt.mpr
    apply rerun_nonpos (hErr p hp)
    obtain ⟨q1, q2, q3⟩ := hacc p hp
    rcases lt_trichotomy (round2 (p.paid - avgPaid ps)) 0 with hr | hr | hr
    · obtain ⟨hin0, hout1, hout2⟩ := q1 hr
      refine Or.inr (Or.inl ⟨hr, ?_, ?_⟩)
      · rw [hin0]
        linarith
      · rw [hin0]
        linarith
    · obtain ⟨hout0, hin0⟩ := q3 hr
      exact Or.inr (Or.inr ⟨hr, by rw [hout0, hin0]; ring⟩)
    · obtain ⟨hout0, _, _⟩ := q2 hr
      have hin := hR p hp hr
      exact Or.inl ⟨hr, by rw [hout0, hin]; ring⟩

/-! ### Transfer-count bounds -/

theorem setBalZero_ids : ∀ (cs : List Bal) (k : ℕ),
    (setBalZero cs k).map Bal.id = cs.map Bal.id := by
  intro cs
  induction cs with
  | nil => intro k; rfl
  | cons c rest ih =>
    intro k
    cases k with
    | zero => rfl
    | succ k =>
      show Bal.id c :: (setBalZero rest k).map Bal.id = Bal.id c :: rest.map Bal.id
      rw [ih k]

/-- One Phase A match consumes exactly one debtor and one creditor. -/
theorem phaseAGo_lengths : ∀ (D C : List Bal) (ts : List Settlement) (kept rem : List Bal),
    phaseAGo D C = (ts, kept, rem) →
    ts.length + kept.length = D.length ∧ ts.length + rem.length = C.length := by
  intro D
  induction D with
  | nil =>
    intro C ts kept rem h
    have h' : (([], [], C) : List Settlement × List Bal × List Bal) = (ts, kept, rem) := h
    simp only [Prod.mk.injEq] at h'
    obtain ⟨rfl, rfl, rfl⟩ := h'
    simp
  | cons d ds ih =>
    intro C ts kept rem h
    rcases hfind : C.find? (credMatch d) with _ | c
    · rcases hr : phaseAGo ds C with ⟨ts1, kept1, rem1⟩
      have h' : (ts1, d :: kept1, rem1) = (ts, kept, rem) := by
        rw [← h]
        simp only [phaseAGo, hfind, hr]
      simp only [Prod.mk.injEq] at h'
      obtain ⟨rfl, rfl, rfl⟩ := h'
      obtain ⟨ih1, ih2⟩ := ih C ts1 kept1 rem1 hr
      simp only [List.length_cons]
      omega
    · have hc_mem : c ∈ C := List.mem_of_find?_eq_some hfind
      set cs1 := (setBalZero C (C.findIdx (credMatch d))).eraseP
        (fun x => x.id == c.id) with hcs1
      have hcs1_len : cs1.length = C.length - 1 := by
        have hid : c.id ∈ (setBalZero C (C.findIdx (credMatch d))).map Bal.id := by
          rw [setBalZero_ids]
          exact List.mem_map_of_mem Bal.id hc_mem
        rcases List.mem_map.mp hid with ⟨x, hx, hxid⟩
        have hlen : ((setBalZero C (C.findIdx (credMatch d))).eraseP
            (fun y => y.id == c.id)).length
            = (setBalZero C (C.findIdx (credMatch d))).length - 1 :=
          List.length_eraseP_of_mem hx (by simp [hxid])
        have hsz : (setBalZero C (C.findIdx (credMatch d))).length = C.length := by
          have := congrArg List.length (setBalZero_ids C (C.findIdx (credMatch d)))
          simpa using this
        rw [hcs1, hlen, hsz]
      have hC1 : 1 ≤ C.length := by
        cases C with
        | nil => cases hc_mem
        | cons a l => simp
      rcases hr : phaseAGo ds cs1 with ⟨ts1, kept1, rem1⟩
      have h' : (mkT d c (qabs d.balance) :: ts1, kept1, rem1) = (ts, kept, rem) := by
        rw [← h]
        simp only [phaseAGo, hfind, ← hcs1, hr]
      simp only [Prod.mk.injEq] at h'
      obtain ⟨rfl, rfl, rfl⟩ := h'
      obtain ⟨ih1, ih2⟩ := ih cs1 ts1 kept1 rem1 hr
      simp only [List.length_cons]
      omega

theorem filter_length_pair (l : List Bal) :
    (l.filter fun b => b.balance < 0).length
      + (l.filter fun b => 0 < b.balance).length ≤ l.length := by
  induction l with
  | nil => simp
  | cons b l ih =>
    rcases lt_trichotomy b.balance 0 with h | h | h
    · rw [List.filter_cons_of_pos (by simpa using h),
        List.filter_cons_of_neg (by simp; linarith)]
      simp only [List.length_cons]
      omega
    · rw [List.filter_cons_of_neg (by simp; linarith),
        List.filter_cons_of_neg (by simp; linarith)]
      simp only [List.length_cons]
      omega
    · rw [List.filter_cons_of_neg (by simp; linarith),
        List.filter_cons_of_pos (by simpa using h)]
      simp only [List.length_cons]
      omega

/-! ### Phase A as worded by the specification (for the refinement claim) -/

/-- Phase A transcribed from the specification's words: scan debtors from the
end of the list backward (the reversed list is consumed front to back); for
each debtor search creditors in list order for the first whose residual
cancels the debtor's within the tolerance; on a hit emit one transfer for the
debtor's magnitude and remove both from their working lists (the found
creditor is removed, i.e. the first one satisfying the match predicate); a
debtor with no match emits nothing and stays. -/
def phaseAGoSpec : List Bal → List Bal → List Settlement × List Bal × List Bal
  | [], cs => ([], [], cs)
  | d :: ds, cs =>
    match cs.find? (credMatch d) with
    | some c =>
      let r := phaseAGoSpec ds (cs.eraseP (credMatch d))
      (mkT d c (qabs d.balance) :: r.1, r.2.1, r.2.2)
    | none =>
      let r := phaseAGoSpec ds cs
      (r.1, d :: r.2.1, r.2.2)

def phaseASpec (D C : List Bal) : List Settlement × List Bal × List Bal :=
  let r := phaseAGoSpec D.reverse C
  (r.1, r.2.1.reverse, r.2.2)

/-- The engine with Phase A replaced by the specification's wording. -/
def settlementsSpecA (ps : List Person) : List Settlement :=
  if ps.length < 2 then []
  else
    let r := phaseASpec (debtorsOf ps) (creditorsOf ps)
    r.1 ++ (phaseBFuel (r.2.1.length + r.2.2.length) r.2.1 r.2.2).getD []

theorem phaseAGo_eq_spec : ∀ (D C : List Bal), (C.map Bal.id).Nodup →
    phaseAGo D C = phaseAGoSpec D C := by
  intro D
  induction D with
  | nil => intro C _; rfl
  | cons d ds ih =>
    intro C hCN
    rcases hfind : C.find? (credMatch d) with _ | c
    · simp only [phaseAGo, phaseAGoSpec, hfind, ih C hCN]
    · have hfaith := removal_faithful d C hCN c hfind
      have hN1 : ((C.eraseP (credMatch d)).map Bal.id).Nodup :=
        hCN.sublist (List.Sublist.map Bal.id (List.eraseP_sublist C))
      simp only [phaseAGo, phaseAGoSpec, hfind, hfaith, ih (C.eraseP (credMatch d)) hN1]

/-! ### Concrete inputs used by the counterexamples and witnesses -/

/-- Two participants: one paid nothing, one paid everything. -/
def exPair : List Person := [⟨1, "a", 0⟩, ⟨2, "b", 100⟩]

/-- Ten participants: one paid `0.04`, nine paid nothing.  Every exact
residual rounds upward, so the rounded residuals sum to `0.04` while no
debtor exists at all. -/
def exDrift : List Person :=
  [⟨1, "p1", 1/25⟩, ⟨2, "p2", 0⟩, ⟨3, "p3", 0⟩, ⟨4, "p4", 0⟩, ⟨5, "p5", 0⟩,
   ⟨6, "p6", 0⟩, ⟨7, "p7", 0⟩, ⟨8, "p8", 0⟩, ⟨9, "p9", 0⟩, ⟨10, "p10", 0⟩]

/-- Two participants whose exact residuals are `∓0.005`: a rounding tie. -/
def exTie : List Person := [⟨1, "a", 0⟩, ⟨2, "b", 1/100⟩]

/-- Four participants giving Phase A two exact matches. -/
def exQuad : List Person := [⟨1, "a", 0⟩, ⟨2, "b", 100⟩, ⟨3, "c", 40⟩, ⟨4, "d", 60⟩]

/-- Three participants whose exact residuals are `-10.004`, `+10.002` and
`+0.002`: the debtor and the first creditor differ by less than a cent
before rounding. -/
def exNear : List Person :=
  [⟨1, "a", 9996/1000⟩, ⟨2, "b", 30002/1000⟩, ⟨3, "c", 20002/1000⟩]

/-! ### The claims -/

/-- Claim C1 (counterexample).  The claim's equation
`outgoing − incoming = paidAmount − fairShare` (within `ε = 0.01`) fails on
the code.  First conjunct: at `exPair` (ids unique, amounts nonnegative,
two participants) participant 1 has `outgoing − incoming = 50` but
`paidAmount − fairShare = −50`; the claim's orientation is reversed.  Second
conjunct: even with the orientation fixed, at `exDrift` participant 1 has
`incoming − outgoing = 0` but `paidAmount − fairShare = 0.036`: the rounded
residuals sum to `0.04`, no debtor exists, and the engine emits nothing, so
no fixed `0.01` tolerance can hold. -/
theorem conservation_as_stated_false :
    (¬ qabs (outSum 1 (settlements exPair) - inSum 1 (settlements exPair)
        - ((0 : ℚ) - totalPaid exPair / exPair.length)) < eps)
    ∧ (¬ qabs (inSum 1 (settlements exDrift) - outSum 1 (settlements exDrift)
        - (1/25 - totalPaid exDrift / exDrift.length)) < eps) := by
  constructor
  · with_unfolding_all decide
  · with_unfolding_all decide

/-- Claim C1 (amended): for every valid input (unique ids, nonnegative
amounts) whose rounded residuals sum to exactly zero, every participant's
incoming minus outgoing equals `paidAmount − fairShare` within `ε = 0.01`
(the engine transfers money from debtors to creditors, so the settled
direction is incoming minus outgoing). -/
theorem conservation_zero_sum (ps : List Person)
    (hN : (ps.map Person.id).Nodup) (_hpos : ∀ p ∈ ps, 0 ≤ p.paid)
    (hsum : ((balancesOf ps).map Bal.balance).sum = 0) :
    ∀ p ∈ ps, qabs (inSum p.id (settlements ps) - outSum p.id (settlements ps)
      - (p.paid - totalPaid ps / ps.length)) < eps := by
  intro p hp
  have hlen : ps.length ≠ 0 := by
    intro h0
    rw [List.length_eq_zero] at h0
    rw [h0] at hp
    cases hp
  have havg : avgPaid ps = totalPaid ps / ps.length := by
    unfold avgPaid
    rw [if_neg hlen]
  have hnet := participant_settle_all ps hN hsum p hp
  rw [← havg, hnet]
  have herr_le := round2_err_le (p.paid - avgPaid ps)
  have herr_ge := round2_err_ge (p.paid - avgPaid ps)
  rw [qabs_lt_iff]
  unfold eps
  constructor
  · linarith
  · linarith

theorem conservation_zero_sum_witness :
    qabs (inSum 1 (settlements exPair) - outSum 1 (settlements exPair)
      - ((0 : ℚ) - totalPaid exPair / exPair.length)) < eps :=
  conservation_zero_sum exPair (by with_unfolding_all decide)
    (by with_unfolding_all decide) (by with_unfolding_all decide)
    ⟨1, "a", 0⟩ (by with_unfolding_all decide)

/-- Claim C2: for every input with unique participant ids, every emitted
transfer has a strictly positive amount — in fact at least one cent, so no
amount rounds to `0.00` — and its from- and to-ids differ. -/
theorem transfers_positive_distinct (ps : List Person)
    (hN : (ps.map Person.id).Nodup) :
    ∀ t ∈ settlements ps, 0 < t.amount ∧ eps ≤ t.amount ∧ t.fromId ≠ t.toId := by
  obtain ⟨P1, _, _, _⟩ := settlements_accounting ps hN
  have hdc := dc_ids_nodup hN
  rw [List.map_append, List.nodup_append] at hdc
  intro t ht
  obtain ⟨hpos, hc, hf, htid⟩ := P1 t ht
  refine ⟨hpos, cents_eps_le hc hpos, ?_⟩
  intro heq
  exact hdc.2.2 hf (heq ▸ htid)

theorem transfers_positive_distinct_witness :
    0 < ((⟨1, "a", 2, "b", 50⟩ : Settlement)).amount
    ∧ eps ≤ ((⟨1, "a", 2, "b", 50⟩ : Settlement)).amount
    ∧ ((⟨1, "a", 2, "b", 50⟩ : Settlement)).fromId
      ≠ ((⟨1, "a", 2, "b", 50⟩ : Settlement)).toId :=
  transfers_positive_distinct exPair (by with_unfolding_all decide)
    ⟨1, "a", 2, "b", 50⟩ (by with_unfolding_all decide)

/-- Claim C3: for every input the engine emits at most
`participantCount − 1` transfers (truncated subtraction on `ℕ`): each Phase A
match consumes a debtor and a creditor, and each waterfall iteration
consumes at least one of the two. -/
theorem settlements_length_bound (ps : List Person) :
    (settlements ps).length ≤ ps.length - 1 := by
  by_cases hlen : ps.length < 2
  · rw [settlements_short hlen]
    simp
  · rcases hA : phaseAGo (debtorsOf ps).reverse (creditorsOf ps) with ⟨tsA, keptRev, rem⟩
    have hphaseA : phaseA (debtorsOf ps) (creditorsOf ps) = (tsA, keptRev.reverse, rem) := by
      unfold phaseA
      rw [hA]
    obtain ⟨tsB, hB⟩ := phaseBFuel_isSome (keptRev.reverse.length + rem.length)
      keptRev.reverse rem (le_refl _)
    have hset : settlements ps = tsA ++ tsB := by
      unfold settlements
      rw [if_neg hlen]
      simp only [hphaseA, hB]
      rfl
    obtain ⟨hA1, hA2⟩ := phaseAGo_lengths _ _ _ _ _ hA
    have hBlen := phaseBFuel_length _ _ _ _ hB
    have e1 : (debtorsOf ps).length + (creditorsOf ps).length ≤ ps.length := by
      have h := filter_length_pair (balancesOf ps)
      rw [balancesOf_length] at h
      exact h
    have hDlen : (debtorsOf ps).reverse.length = (debtorsOf ps).length :=
      List.length_reverse _
    have hklen : keptRev.reverse.length = keptRev.length := List.length_reverse _
    rw [hDlen] at hA1
    rw [hklen] at hBlen
    rw [hset, List.length_append]
    push_neg at hlen
    rcases hBlen with rfl | hBlen
    · simp only [List.length_nil]
      omega
    · omega

/-- Claim C4: Phase A behaves exactly as the specification describes.  With
unique participant ids the engine equals `settlementsSpecA`, whose Phase A
(`phaseAGoSpec`) is transcribed from the specification's words: partition the
rounded balances into debtors and creditors in input order, scan debtors from
the end backward, match each debtor with the first creditor (in current list
order) whose residual cancels the debtor's within `0.01`, emit one transfer
from debtor to creditor for the debtor's magnitude, remove both, and emit
nothing for an unmatched debtor. -/
theorem phaseA_matches_spec (ps : List Person) (hN : (ps.map Person.id).Nodup) :
    settlements ps = settlementsSpecA ps := by
  have hCN : ((creditorsOf ps).map Bal.id).Nodup := by
    have h := dc_ids_nodup hN
    rw [List.map_append, List.nodup_append] at h
    exact h.2.1
  unfold settlements settlementsSpecA phaseA phaseASpec
  rw [phaseAGo_eq_spec (debtorsOf ps).reverse (creditorsOf ps) hCN]

theorem phaseA_matches_spec_witness : settlements exQuad = settlementsSpecA exQuad :=
  phaseA_matches_spec exQuad (by with_unfolding_all decide)

/-- Claim C5 (counterexample).  First conjunct: with the claim's update rule
`paid' = paid − totalOutgoing + totalIncoming`, re-running the engine on
`exPair` does not give an empty list (the update moves the payer to `−50`
and the payee to `150`, so the engine emits a `100` transfer).  Second
conjunct: even with the correct orientation `paid' = paid + totalOutgoing −
totalIncoming`, re-running on `exTie` is nonempty: its exact residuals
`∓0.005` are rounding ties, round away from zero to `∓0.01`, and the `0.01`
transfer overshoots, so the re-run emits the same cent back. -/
theorem resettle_as_stated_false :
    settlements (applyTransfersClaim exPair (settlements exPair)) ≠ []
    ∧ settlements (applyTransfers exTie (settlements exTie)) ≠ [] := by
  constructor
  · with_unfolding_all decide
  · with_unfolding_all decide

/-- Claim C5 (amended): for every input with unique ids in which no exact
residual is a rounding tie (an odd multiple of half a cent), updating each
participant by `paid' = paid + totalOutgoing − totalIncoming` (applying the
transfers: payers have now contributed more, payees less) and re-running the
engine yields an empty transfer list. -/
theorem resettle_idempotent (ps : List Person) (hN : (ps.map Person.id).Nodup)
    (hties : ∀ p ∈ ps, ¬ isTie (p.paid - avgPaid ps)) :
    settlements (applyTransfers ps (settlements ps)) = [] :=
  resettle_empty ps hN hties

theorem resettle_idempotent_witness :
    settlements (applyTransfers exPair (settlements exPair)) = [] :=
  resettle_idempotent exPair (by with_unfolding_all decide)
    (by with_unfolding_all decide)

/-- Claim C6: the waterfall loop terminates for every pair of working lists.
Each iteration pays `min(−debtor, creditor)`, which drives the smaller
balance exactly to zero, below `ε = 0.01`, so at least one pointer advances
(`advance_progress`); fuel `|debtors| + |creditors|` — the fuel `settlements`
supplies — therefore always suffices, and the loop ends when either list is
exhausted.  The whole settlement computation is thus a total function. -/
theorem waterfall_terminates (D C : List Bal) :
    ∃ ts, phaseBFuel (D.length + C.length) D C = some ts :=
  phaseBFuel_isSome (D.length + C.length) D C (le_refl _)

/-- Claim C7: for inputs with at least one participant the engine builds one
balance per participant, in input order, and each balance rounds the
per-participant residual `paid − total/count` to two decimals — the rounding
is applied to each residual, not to `total/count` first. -/
theorem balances_per_participant (ps : List Person) (h1 : 1 ≤ ps.length) :
    (balancesOf ps).length = ps.length
    ∧ balancesOf ps
      = ps.map fun p => ⟨p.id, p.name, round2 (p.paid - totalPaid ps / ps.length)⟩ := by
  have hlen : ps.length ≠ 0 := by omega
  have havg : avgPaid ps = totalPaid ps / ps.length := by
    unfold avgPaid
    rw [if_neg hlen]
  refine ⟨balancesOf_length ps, ?_⟩
  unfold balancesOf
  rw [havg]

theorem balances_per_participant_witness :
    (balancesOf exPair).length = exPair.length
    ∧ balancesOf exPair
      = exPair.map fun p => ⟨p.id, p.name, round2 (p.paid - totalPaid exPair / exPair.length)⟩ :=
  balances_per_participant exPair (by decide)

/-- Claim C8 (counterexample): at `exDrift` (ten participants, one paid
`0.04`) the rounded residuals sum to `0.04 = 1/25`, which exceeds the
engine's tolerance `ε = 0.01`, so the sum is not `0` within the engine's
tolerance. -/
theorem residual_sum_as_stated_false :
    ((balancesOf exDrift).map Bal.balance).sum = 1/25
    ∧ ¬ qabs (((balancesOf exDrift).map Bal.balance).sum) ≤ eps := by
  constructor
  · with_unfolding_all decide
  · with_unfolding_all decide

/-- Claim C8 (amended): for every input with at least one participant the
unrounded residuals sum to exactly `0`, and the rounded residuals sum to `0`
within `n` half-cents (`n/200`), each rounding contributing at most half a
cent of drift; no fixed tolerance independent of `n` holds. -/
theorem residual_sum_bound (ps : List Person) (h1 : 1 ≤ ps.length) :
    (ps.map fun p => p.paid - avgPaid ps).sum = 0
    ∧ qabs (((balancesOf ps).map Bal.balance).sum) ≤ ps.length * (1/200) := by
  have hlen : ps.length ≠ 0 := by omega
  have hcast : (ps.length : ℚ) ≠ 0 := Nat.cast_ne_zero.mpr hlen
  have havg : avgPaid ps = totalPaid ps / ps.length := by
    unfold avgPaid
    rw [if_neg hlen]
  have hexact : (ps.map fun p => p.paid - avgPaid ps).sum = 0 := by
    rw [sum_map_sub, sum_map_const, havg]
    unfold totalPaid
    field_simp
  refine ⟨hexact, ?_⟩
  have hbal : ((balancesOf ps).map Bal.balance).sum
      = (ps.map fun p => round2 (p.paid - avgPaid ps)).sum := by
    unfold balancesOf
    rw [List.map_map]
    rfl
  have hsplit : (ps.map fun p => round2 (p.paid - avgPaid ps)).sum
      = (ps.map fun p => (p.paid - avgPaid ps)
          + (round2 (p.paid - avgPaid ps) - (p.paid - avgPaid ps))).sum := by
    apply sum_map_congr
    intro p _
    ring
  rw [hbal, hsplit, sum_map_add, hexact, zero_add]
  have hbound := sum_qabs_bound ps
    (fun p => round2 (p.paid - avgPaid ps) - (p.paid - avgPaid ps)) (1/200)
    (fun p _ => qabs_le_iff.mpr ⟨round2_err_ge _, round2_err_le _⟩)
  exact hbound

theorem residual_sum_bound_witness :
    (exPair.map fun p => p.paid - avgPaid exPair).sum = 0
    ∧ qabs (((balancesOf exPair).map Bal.balance).sum) ≤ exPair.length * (1/200) :=
  residual_sum_bound exPair (by decide)

/-- Claim C9: degenerate inputs produce an empty transfer list: zero or one
participant short-circuits the engine, and if every rounded residual is zero
there are no debtors (and no creditors) so neither phase emits anything; the
computation is total, so no error is raised on any input. -/
theorem settlements_degenerate (ps : List Person)
    (h : ps.length ≤ 1 ∨ ∀ p ∈ ps, round2 (p.paid - avgPaid ps) = 0) :
    settlements ps = [] := by
  rcases h with h | h
  · exact settlements_short (by omega)
  · apply settlements_no_debtors
    unfold debtorsOf
    rw [List.filter_eq_nil_iff]
    intro b hb
    unfold balancesOf at hb
    rcases List.mem_map.mp hb with ⟨p, hp, rfl⟩
    simp only [decide_eq_true_eq]
    show ¬ round2 (p.paid - avgPaid ps) < 0
    rw [h p hp]
    exact lt_irrefl 0

theorem settlements_degenerate_witness :
    settlements [⟨1, "a", 5⟩, ⟨2, "b", 5⟩] = [] :=
  settlements_degenerate [⟨1, "a", 5⟩, ⟨2, "b", 5⟩]
    (Or.inr (by with_unfolding_all decide))

/-- Claim C10 (counterexample): the claimed sub-cent discard never occurs.
At `exNear` the debtor's and first creditor's exact residuals (`−10.004` and
`+10.002`) differ in magnitude by less than a cent — the situation the claim
reads as a tolerant, inexact Phase A pairing — yet after rounding both are
exactly `∓10.00`, Phase A pairs them with a single transfer of exactly `10`,
and the creditor receives exactly its rounded residual: nothing is
discarded and the creditor is not paid a cent more or less. -/
theorem phaseA_no_discard_at_exNear :
    balancesOf exNear = [⟨1, "a", -10⟩, ⟨2, "b", 10⟩, ⟨3, "c", 0⟩]
    ∧ settlements exNear = [⟨1, "a", 2, "b", 10⟩]
    ∧ inSum 2 (settlements exNear) = 10 := by
  refine ⟨?_, ?_, ?_⟩
  · with_unfolding_all decide
  · with_unfolding_all decide
  · with_unfolding_all decide

/-- Claim C10 (amended): a Phase A match always cancels exactly.  Rounded
residuals are integer numbers of cents, so `|c.balance + d.balance| < 0.01`
forces `c.balance = −d.balance`; the emitted amount `|d.balance|` therefore
equals the matched creditor's full residual, and no sub-cent surplus or
deficit is ever discarded: every Phase A transfer pays some creditor exactly
that creditor's balance. -/
theorem phaseA_match_exact (ps : List Person) (hN : (ps.map Person.id).Nodup) :
    ∀ t ∈ (phaseA (debtorsOf ps) (creditorsOf ps)).1,
      ∃ c ∈ creditorsOf ps, t.toId = c.id ∧ t.amount = c.balance := by
  rcases hA : phaseAGo (debtorsOf ps).reverse (creditorsOf ps) with ⟨tsA, keptRev, rem⟩
  have hDrev : ∀ b ∈ (debtorsOf ps).reverse, b.balance < 0 ∧ cents b.balance :=
    fun b hb => debtors_neg_cents b (List.mem_reverse.mp hb)
  obtain ⟨A1, _, _, _, _, _, _, _, _⟩ :=
    phaseA_accounting (debtorsOf ps).reverse (creditorsOf ps) tsA keptRev rem hA
      hDrev creditors_pos_cents (dc_rev_ids_nodup hN)
  intro t ht
  have hfst : (phaseA (debtorsOf ps) (creditorsOf ps)).1 = tsA := by
    unfold phaseA
    rw [hA]
  rw [hfst] at ht
  exact (A1 t ht).2.2.2

theorem phaseA_match_exact_witness :
    ∃ c ∈ creditorsOf exNear, ((⟨1, "a", 2, "b", 10⟩ : Settlement)).toId = c.id
      ∧ ((⟨1, "a", 2, "b", 10⟩ : Settlement)).amount = c.balance :=
  phaseA_match_exact exNear (by with_unfolding_all decide)
    ⟨1, "a", 2, "b", 10⟩ (by with_unfolding_all decide)

end AASplitter
